import Mathlib

/-!
Verification of the directive engine of `rustdoc-include` against its
specification.  The Rust sources (src/main.rs, src/attr.rs, src/text_pos.rs)
are shallowly embedded: text is `List Char`, offsets are UTF-8 byte offsets
(`Char.utf8Size`), fallible operations return `Except`/`Option`, and the one
place the Rust code can panic (an out-of-order slice in `trim`) is modeled by
an explicit `Out.panics` outcome.  File reading, path canonicalization and the
root-containment check of `include` are abstracted into an environment
`Inc : path -> Except reason (relPath, contents)`.

The marker pattern of attr.rs is the line-anchored regex
  (?m:^[ \t]*//[ \t]*#(!?)\[[ \t]*include_doc
      (?:[ \t]*\([ \t]*"([^"]*)"[ \t]*,[ \t]*(start|end)[ \t]*
         (?:\([ \t]*(?:"([^"]*)"|(-)?([0-9]+))[ \t]*\)[ \t]*)?\)[ \t]*|.*)
      \][ \t]*$)
It is modeled per line (the documented marker grammar is one physical line;
a quoted path spanning a line break is not modeled), with the leftmost-first
alternation order of the regex crate: the well-formed branch is tried first,
and a line of the right comment-attribute shape that fails the detailed
grammar is a malformed directive, carrying the full line's byte range.
-/

set_option maxRecDepth 10000

namespace RustdocInclude

/-! ### Bytes and UTF-8 text primitives -/

/-- Total UTF-8 byte length of a character list (Rust `str::len`). -/
def utf8Len : List Char → Nat
  | [] => 0
  | c :: s => c.utf8Size + utf8Len s

/-- Drop the first `n` bytes (Rust `&s[n..]`; only used at char boundaries). -/
def byteDrop : List Char → Nat → List Char
  | [], _ => []
  | c :: s, n => if n = 0 then c :: s else byteDrop s (n - c.utf8Size)

/-- Keep the first `n` bytes (Rust `&s[..n]`; only used at char boundaries). -/
def byteTake : List Char → Nat → List Char
  | [], _ => []
  | c :: s, n => if n = 0 then [] else c :: byteTake s (n - c.utf8Size)

/-- Rust `&s[a..b]` for `a ≤ b` at char boundaries. -/
def byteSlice (s : List Char) (a b : Nat) : List Char := byteTake (byteDrop s a) (b - a)

/-- Rust `char::is_whitespace`: the Unicode `White_Space` property. -/
def rustIsWhitespace (c : Char) : Bool :=
  let n := c.toNat
  (0x9 ≤ n && n ≤ 0xD) || n = 0x20 || n = 0x85 || n = 0xA0 || n = 0x1680 ||
  (0x2000 ≤ n && n ≤ 0x200A) || n = 0x2028 || n = 0x2029 || n = 0x202F ||
  n = 0x205F || n = 0x3000

/-- Rust `str::trim_start`. -/
def rustTrimStart (s : List Char) : List Char := s.dropWhile rustIsWhitespace

/-- Rust `str::trim_end`. -/
def rustTrimEnd (s : List Char) : List Char := (s.reverse.dropWhile rustIsWhitespace).reverse

/-! ### Lines -/

/-- Split at every `'\n'`: a text with `n` newlines yields `n + 1` pieces,
none containing `'\n'`. -/
def splitLinesAux : List Char → List Char → List (List Char)
  | [], acc => [acc.reverse]
  | c :: t, acc =>
    if c = '\n' then acc.reverse :: splitLinesAux t [] else splitLinesAux t (c :: acc)

def splitLines (s : List Char) : List (List Char) := splitLinesAux s []

/-- Inverse of `splitLines`: interleave the pieces with `'\n'`. -/
def joinNl : List (List Char) → List Char
  | [] => []
  | [l] => l
  | l :: ls => l ++ '\n' :: joinNl ls

/-- Join pieces, terminating every piece with `'\n'`. -/
def joinTrail : List (List Char) → List Char
  | [] => []
  | l :: ls => l ++ '\n' :: joinTrail ls

/-- Strip one trailing `'\r'` (the `LinesMap` step of Rust `str::lines`). -/
def stripCr (l : List Char) : List Char :=
  if l.getLast? = some '\r' then l.dropLast else l

/-- Rust `str::lines`: split at `'\n'`, no final empty line for a trailing
newline, and a `'\r'` immediately before a stripped `'\n'` is stripped too. -/
def rustLines (s : List Char) : List (List Char) :=
  (splitLines s).dropLast.map stripCr ++
    (match (splitLines s).getLast? with
     | some [] => []
     | some l => [l]
     | none => [])

/-! ### Substring search (Rust `str::find` / `str::rfind` on string patterns) -/

/-- First byte offset `≥ idx` at which `p` occurs in the suffix. -/
def strFindGo : List Char → List Char → Nat → Option Nat
  | [], p, idx => if p.isPrefixOf ([] : List Char) then some idx else none
  | c :: t, p, idx =>
    if p.isPrefixOf (c :: t) then some idx else strFindGo t p (idx + c.utf8Size)

/-- Rust `str::find`: byte offset of the first occurrence. -/
def strFind (hay pat : List Char) : Option Nat := strFindGo hay pat 0

def strRFindGo : List Char → List Char → Nat → Option Nat
  | [], p, idx => if p.isPrefixOf ([] : List Char) then some idx else none
  | c :: t, p, idx =>
    match strRFindGo t p (idx + c.utf8Size) with
    | some j => some j
    | none => if p.isPrefixOf (c :: t) then some idx else none

/-- Rust `str::rfind`: byte offset of the last occurrence. -/
def strRFind (hay pat : List Char) : Option Nat := strRFindGo hay pat 0

/-! ### text_pos.rs -/

structure TextPos where
  line : Nat
  column : Nat
deriving DecidableEq, Repr

/-- One step of the scanning loop of `TextPos::from_str_offset`. -/
def posStep (v : TextPos) (c : Char) : TextPos :=
  if c = '\n' then ⟨v.line + 1, 1⟩ else ⟨v.line, v.column + 1⟩

/-- The loop of `TextPos::from_str_offset`: `off` is the number of bytes still
to go before the requested offset (the Rust loop breaks at `index >= offset`,
i.e. exactly when this count hits zero). -/
def fromStrOffsetGo : List Char → Nat → TextPos → TextPos
  | [], _, v => v
  | c :: t, off, v =>
    if off = 0 then v else fromStrOffsetGo t (off - c.utf8Size) (posStep v c)

/-- `TextPos::from_str_offset` (text_pos.rs). -/
def TextPos.fromStrOffset (s : List Char) (offset : Nat) : TextPos :=
  fromStrOffsetGo s offset ⟨1, 1⟩

/-! ### attr.rs: the data model -/

inductive Kind where
  | inner
  | outer
deriving DecidableEq, Repr

/-- `Kind::doc_comment_prefix`. -/
def Kind.docPfx : Kind → List Char
  | .inner => ['/', '/', '!', ' ']
  | .outer => ['/', '/', '/', ' ']

inductive Action where
  | start
  | end_
deriving DecidableEq, Repr

inductive ActionArg where
  | none
  | line (n : Nat)
  | lineRev (n : Nat)
  | text (p : List Char)
deriving DecidableEq, Repr

/-- `Attr` (attr.rs): one recognized directive, with the byte range of the full
matched line in its containing text. -/
structure Attr where
  rangeStart : Nat
  rangeEnd : Nat
  path : List Char
  kind : Kind
  action : Action
  arg : ActionArg
deriving DecidableEq, Repr

/-- `BadAttrError` (attr.rs): only the byte range of the malformed line. -/
structure BadAttr where
  rangeStart : Nat
  rangeEnd : Nat
deriving DecidableEq, Repr

inductive Mismatch where
  | kind
  | path
deriving DecidableEq, Repr

/-- `Attr::mismatch`: kind is compared first, then path. -/
def Attr.mismatch (a b : Attr) : Option Mismatch :=
  if a.kind ≠ b.kind then some .kind
  else if a.path ≠ b.path then some .path
  else Option.none

/-- The content of a parsed directive, without its range. -/
structure Core where
  kind : Kind
  path : List Char
  action : Action
  arg : ActionArg
deriving DecidableEq, Repr

/-! ### attr.rs: the line matcher -/

/-- `[ \t]` of the pattern. -/
def isWsCh (c : Char) : Bool := c = ' ' || c = '\t'

/-- `[ \t]*` of the pattern. -/
def skipWs (s : List Char) : List Char := s.dropWhile isWsCh

def digitVal (c : Char) : Nat := c.toNat - '0'.toNat

def natOfDigits : List Char → Nat → Nat
  | [], acc => acc
  | c :: t, acc => natOfDigits t (acc * 10 + digitVal c)

/-- `(-)?([0-9]+)[ \t]*\)[ \t]*` after the optional leading `-` was read.
A value over `usize::MAX` fails Rust's `parse::<usize>()`, which makes
`Attr::from_captures` return `None` (a malformed directive). -/
def parseNumTail (neg : Bool) (r : List Char) : Option (ActionArg × List Char) :=
  let ds := r.takeWhile Char.isDigit
  let rest := r.dropWhile Char.isDigit
  if ds = [] then Option.none
  else
    let n := natOfDigits ds 0
    if n < 2 ^ 64 then
      match skipWs rest with
      | ')' :: r4 => some ((if neg then .lineRev n else .line n), skipWs r4)
      | _ => Option.none
    else Option.none

/-- `(?:\([ \t]*(?:"([^"]*)"|(-)?([0-9]+))[ \t]*\)[ \t]*)?`: the optional
argument after `start`/`end`.  When the next character is not `(` the group
matches empty; when it is `(` but the inside fails, the surrounding
well-formed branch cannot recover (its next token is `\)`). -/
def parseOptArg (s : List Char) : Option (ActionArg × List Char) :=
  match s with
  | '(' :: r =>
    match skipWs r with
    | '"' :: r2 =>
      let p := r2.takeWhile (fun c => c ≠ '"')
      (match r2.dropWhile (fun c => c ≠ '"') with
       | '"' :: r3 =>
         match skipWs r3 with
         | ')' :: r4 => some (.text p, skipWs r4)
         | _ => Option.none
       | _ => Option.none)
    | '-' :: r2 => parseNumTail true r2
    | r2 => parseNumTail false r2
  | _ => some (.none, s)

/-- `(start|end)`. -/
def parseActionWord (s : List Char) : Option (Action × List Char) :=
  if ("start".toList).isPrefixOf s then some (.start, s.drop 5)
  else if ("end".toList).isPrefixOf s then some (.end_, s.drop 3)
  else Option.none

/-- The well-formed branch after `include_doc`:
`[ \t]*\([ \t]*"([^"]*)"[ \t]*,[ \t]*(start|end)[ \t]*ARG?\)[ \t]*\][ \t]*$`. -/
def parseWell (s : List Char) : Option (List Char × Action × ActionArg) :=
  match skipWs s with
  | '(' :: r =>
    match skipWs r with
    | '"' :: r2 =>
      let p := r2.takeWhile (fun c => c ≠ '"')
      (match r2.dropWhile (fun c => c ≠ '"') with
       | '"' :: r3 =>
         match skipWs r3 with
         | ',' :: r4 =>
           (match parseActionWord (skipWs r4) with
            | some (act, r5) =>
              (match parseOptArg (skipWs r5) with
               | some (arg, r6) =>
                 (match r6 with
                  | ')' :: r7 =>
                    (match skipWs r7 with
                     | ']' :: r8 => if skipWs r8 = [] then some (p, act, arg) else Option.none
                     | _ => Option.none)
                  | _ => Option.none)
               | Option.none => Option.none)
            | Option.none => Option.none)
         | _ => Option.none
       | _ => Option.none)
    | _ => Option.none
  | _ => Option.none

/-- The `.*` fallback branch: anything, then `\]`, then `[ \t]*$`. -/
def shapeTail (rest : List Char) : Bool :=
  match rest.reverse.dropWhile isWsCh with
  | ']' :: _ => true
  | _ => false

/-- Match one physical line against the directive pattern.
`Option.none`: the line is not of the comment-attribute shape (no match);
`some Option.none`: shape matched but the detailed grammar failed
(`BadAttrError`); `some (some c)`: a well-formed directive. -/
def parseLine (l : List Char) : Option (Option Core) :=
  match skipWs l with
  | '/' :: '/' :: r =>
    match skipWs r with
    | '#' :: r2 =>
      let ir : Bool × List Char :=
        match r2 with
        | '!' :: t => (true, t)
        | _ => (false, r2)
      (match ir.2 with
       | '[' :: r4 =>
         let r5 := skipWs r4
         if ("include_doc".toList).isPrefixOf r5 then
           let rest := r5.drop 11
           match parseWell rest with
           | some (p, act, arg) =>
             some (some ⟨if ir.1 then .inner else .outer, p, act, arg⟩)
           | Option.none => if shapeTail rest then some Option.none else Option.none
         else Option.none
       | _ => Option.none)
    | _ => Option.none
  | _ => Option.none

/-- One item of `Attr::find_iter`, for the line at byte offset `off`:
the match range of a matched line is the whole line. -/
def itemOfLine (off : Nat) (l : List Char) : Option (Except BadAttr Attr) :=
  match parseLine l with
  | Option.none => Option.none
  | some Option.none => some (.error ⟨off, off + utf8Len l⟩)
  | some (some c) => some (.ok ⟨off, off + utf8Len l, c.path, c.kind, c.action, c.arg⟩)

/-- The stream of parse results over a list of lines starting at byte
offset `off` (each line is followed by one `'\n'` byte, except the last). -/
def streamFrom : Nat → List (List Char) → List (Except BadAttr Attr)
  | _, [] => []
  | off, l :: ls =>
    match itemOfLine off l with
    | some it => it :: streamFrom (off + utf8Len l + 1) ls
    | Option.none => streamFrom (off + utf8Len l + 1) ls

/-- `Attr::find_iter`. -/
def findIter (s : List Char) : List (Except BadAttr Attr) := streamFrom 0 (splitLines s)

/-- `Attr::find_may_bad`: byte range of the first line of the
comment-attribute shape, well-formed or not. -/
def findMayBad (s : List Char) : Option (Nat × Nat) :=
  match findIter s with
  | [] => Option.none
  | .ok a :: _ => some (a.rangeStart, a.rangeEnd)
  | .error b :: _ => some (b.rangeStart, b.rangeEnd)

/-! ### main.rs: errors, pairing, range resolution -/

inductive ApplyError where
  | badAttr (e : BadAttr)
  | missingAttr (a : Attr)
  | mismatchAttr (s e : Attr) (m : Mismatch)
  | textNofFound (a : Attr)
  | sourceRead (a : Attr) (reason : List Char)
  | sourceContent (a : Attr) (srcRelPath srcText : List Char)
      (rangeA rangeB : Nat) (reason : List Char)
deriving DecidableEq, Repr

/-- `make_pair` (main.rs).  The Rust function mutates the pending-start slot;
here the new slot value is returned alongside.  On an error `apply` aborts at
once (`?`), so the slot value after an error is irrelevant and not returned. -/
def makePair (pending : Option Attr) (item : Except BadAttr Attr) :
    Except ApplyError (Option Attr × Option (Attr × Attr)) :=
  match item with
  | .error e => .error (.badAttr e)
  | .ok a =>
    match a.action with
    | .start =>
      match pending with
      | some prev => .error (.missingAttr prev)
      | Option.none => .ok (some a, Option.none)
    | .end_ =>
      match pending with
      | some prev =>
        (match prev.mismatch a with
         | some m => .error (.mismatchAttr prev a m)
         | Option.none => .ok (Option.none, some (prev, a)))
      | Option.none => .error (.missingAttr a)

/-- The loop of `line_offset` (main.rs): `total` is `text.len()`, `idx` the
byte index of the current character, `line` the remaining countdown. -/
def lineOffsetGo : List Char → Nat → Nat → Nat → Nat
  | [], _, _, total => total
  | c :: t, line, idx, total =>
    if c = '\n' then
      (if line = 1 then idx + 1 else lineOffsetGo t (line - 1) (idx + c.utf8Size) total)
    else lineOffsetGo t line (idx + c.utf8Size) total

/-- `line_offset` (main.rs). -/
def lineOffset (text : List Char) (line : Nat) : Nat :=
  if line ≤ 1 then 0 else lineOffsetGo text (line - 1) 0 (utf8Len text)

/-- Rust `char_indices` as a list of (byte index, char) pairs. -/
def charIndicesFrom : Nat → List Char → List (Nat × Char)
  | _, [] => []
  | idx, c :: t => (idx, c) :: charIndicesFrom (idx + c.utf8Size) t

/-- The loop of `line_offset_rev` over `char_indices().rev()`. -/
def lineOffsetRevGo : List (Nat × Char) → Nat → Nat
  | [], _ => 0
  | (idx, c) :: t, line =>
    if c = '\n' then (if line = 1 then idx else lineOffsetRevGo t (line - 1))
    else lineOffsetRevGo t line

/-- `line_offset_rev` (main.rs). -/
def lineOffsetRev (text : List Char) (line : Nat) : Nat :=
  if line = 0 then utf8Len text
  else lineOffsetRevGo (charIndicesFrom 0 text).reverse line

/-- Outcome of Rust code that can also panic. -/
inductive Out (α : Type) where
  | panics
  | err (e : ApplyError)
  | ok (a : α)
deriving DecidableEq, Repr

def Out.toOpt : Out α → Option α
  | .ok a => some a
  | _ => Option.none

/-- The `index_start` computation of `trim` (its `start.arg` match). -/
def resolveLower (text : List Char) (a : Attr) : Except ApplyError Nat :=
  match a.arg with
  | .none => .ok 0
  | .line n => .ok (lineOffset text n)
  | .lineRev n => .ok (lineOffsetRev text n)
  | .text p =>
    match strFind text p with
    | some i => .ok i
    | Option.none => .error (.textNofFound a)

/-- The `index_end` computation of `trim` (its `end.arg` match). -/
def resolveUpper (text : List Char) (a : Attr) : Except ApplyError Nat :=
  match a.arg with
  | .none => .ok (utf8Len text)
  | .line n => .ok (lineOffset text n)
  | .lineRev n => .ok (lineOffsetRev text n)
  | .text p =>
    match strRFind text p with
    | some i => .ok i
    | Option.none => .error (.textNofFound a)

/-- `trim` (main.rs).  After both bounds resolve, Rust evaluates
`text[index_start..index_end]`, which panics when `index_start > index_end`
(or past the end): that is `Out.panics`.  Otherwise leading whitespace is
dropped from the front and trailing whitespace from the back, by byte
arithmetic exactly as in the source. -/
def trim (text : List Char) (s e : Attr) : Out (List Char) :=
  match resolveLower text s with
  | .error er => .err er
  | .ok i0 =>
    match resolveUpper text e with
    | .error er => .err er
    | .ok j0 =>
      if i0 ≤ j0 ∧ j0 ≤ utf8Len text then
        let i1 := j0 - utf8Len (rustTrimStart (byteSlice text i0 j0))
        let j1 := i1 + utf8Len (rustTrimEnd (byteSlice text i1 j0))
        .ok (byteSlice text i1 j1)
      else .panics

/-! ### main.rs: the substitution engine -/

/-- `to_doc_comment` (main.rs): every line of `s`, prefixed and
newline-terminated. -/
def toDocComment (s pfx : List Char) : List Char :=
  joinTrail ((rustLines s).map (fun l => pfx ++ l))

/-- `is_modified` (main.rs). -/
def isModified (textNew input : List Char) (s e : Attr) : Bool :=
  match byteSlice input s.rangeEnd e.rangeStart with
  | '\n' :: t => decide (textNew ≠ t)
  | _ => true

/-- The environment standing for `include` (main.rs): a source path maps to
its resolved relative path and contents, or to a read/containment failure
with its reason. -/
def Inc : Type := List Char → Except (List Char) (List Char × List Char)

def pollutionReason : List Char := "source file contains attribute".toList

structure ApplyResult where
  text : Option (List Char)
  logs : List (List Char × Bool)
deriving DecidableEq, Repr

/-- The loop of `apply` (main.rs) over the parse-result stream, with the
loop state (`attr_start`, `text`, `text_is_modified`, `last_offset`, `logs`)
passed explicitly.  After the loop the rest of the input is appended and no
check of a still-pending start is made, exactly as in the source. -/
def applyGo (inc : Inc) (input : List Char) :
    List (Except BadAttr Attr) → Option Attr → List Char → Bool → Nat →
    List (List Char × Bool) → Out ApplyResult
  | [], _, text, modif, lastOff, logs =>
    .ok ⟨if modif then some (text ++ byteDrop input lastOff) else Option.none, logs⟩
  | item :: rest, pending, text, modif, lastOff, logs =>
    match makePair pending item with
    | .error e => .err e
    | .ok (pending1, Option.none) => applyGo inc input rest pending1 text modif lastOff logs
    | .ok (_, some (s, e)) =>
      match inc s.path with
      | .error reason => .err (.sourceRead s reason)
      | .ok (relPath, src) =>
        match trim src s e with
        | .panics => .panics
        | .err er => .err er
        | .ok trimmed =>
          if isModified (toDocComment trimmed s.kind.docPfx) input s e then
            match findMayBad (toDocComment trimmed s.kind.docPfx) with
            | some (a, b) =>
              .err (.sourceContent s relPath (toDocComment trimmed s.kind.docPfx)
                a b pollutionReason)
            | Option.none =>
              applyGo inc input rest Option.none
                (text ++ byteSlice input lastOff s.rangeEnd ++ ['\n'] ++
                  toDocComment trimmed s.kind.docPfx)
                true e.rangeStart (logs ++ [(relPath, true)])
          else
            applyGo inc input rest Option.none
              (text ++ byteSlice input lastOff s.rangeEnd ++ ['\n'] ++
                toDocComment trimmed s.kind.docPfx)
              modif e.rangeStart (logs ++ [(relPath, false)])

/-- `apply` (main.rs). -/
def apply (inc : Inc) (input : List Char) : Out ApplyResult :=
  applyGo inc input (findIter input) Option.none [] false 0 []

/-! ### Specification-side notions

Declarative counterparts used to state the claims; each theorem relates one
of them to the embedded code above. -/

/-- The characters whose byte index is strictly below `off`. -/
def charsBefore : List Char → Nat → List Char
  | [], _ => []
  | c :: t, off => if off = 0 then [] else c :: charsBefore t (off - c.utf8Size)

/-- Number of `'\n'` characters in a list. -/
def nlCount (s : List Char) : Nat := s.countP (fun c => decide (c = '\n'))

/-- Number of characters after the last `'\n'` (all of them when there is
none). -/
def sinceLastNl (s : List Char) : Nat := (s.reverse.takeWhile (fun c => c ≠ '\n')).length

/-- Number of lines of a text, in the sense of Rust `str::lines`. -/
def linesCount (s : List Char) : Nat := (rustLines s).length

/-- `p` occurs in `t` at byte offset `i`. -/
def occursAt (t p : List Char) (i : Nat) : Prop :=
  ∃ a b, t = a ++ p ++ b ∧ utf8Len a = i

/-- `i` is the byte offset of the first occurrence of `p` in `t`. -/
def firstOcc (t p : List Char) (i : Nat) : Prop :=
  occursAt t p i ∧ ∀ j, occursAt t p j → i ≤ j

/-- `i` is the byte offset of the last occurrence of `p` in `t`. -/
def lastOcc (t p : List Char) (i : Nat) : Prop :=
  occursAt t p i ∧ ∀ j, occursAt t p j → j ≤ i

/-- The pairing pass alone: the matched pairs that `apply`'s loop feeds to the
substitution, in document order (a still-pending start at the end of the
stream is dropped, as in `apply`). -/
def collectPairs : Option Attr → List (Except BadAttr Attr) →
    Except ApplyError (List (Attr × Attr))
  | _, [] => .ok []
  | pending, item :: rest =>
    match makePair pending item with
    | .error e => .error e
    | .ok (p1, Option.none) => collectPairs p1 rest
    | .ok (p1, some pr) =>
      match collectPairs p1 rest with
      | .error e => .error e
      | .ok ps => .ok (pr :: ps)

/-- The splice of §4.4/5: per pair, the untouched input up to and including
the start marker, a newline, the rendered block, continuing from the end
marker; text after the last pair verbatim. -/
def spliceFrom (input : List Char) : Nat → List ((Attr × Attr) × List Char) → List Char
  | lastOff, [] => byteDrop input lastOff
  | lastOff, ((s, e), block) :: rest =>
    byteSlice input lastOff s.rangeEnd ++ '\n' :: (block ++ spliceFrom input e.rangeStart rest)

/-- The pair's rendered content equals what already lay between its markers
(a newline followed by the block). -/
def pairUnchanged (input : List Char) (s e : Attr) (block : List Char) : Prop :=
  byteSlice input s.rangeEnd e.rangeStart = '\n' :: block

/-- `block` is the rendered block of the pair `pr` under the include
environment `inc`. -/
def RenderedAs (inc : Inc) (pr : Attr × Attr) (block : List Char) : Prop :=
  ∃ rel src tr, inc pr.1.path = .ok (rel, src) ∧ trim src pr.1 pr.2 = .ok tr ∧
    block = toDocComment tr pr.1.kind.docPfx

/-! ### A line-level model of the engine

`apply` is byte-offset driven; for the idempotence proof it is related to an
equivalent model that walks the input line by line.  The model returns
`Option.none` for every failing outcome (error or panic) and otherwise the
mode reached, the output lines emitted, the log entries and whether any pair
changed. -/

/-- The content-only outcome of `trim`, determined by the two arguments. -/
def resolveLowerN (text : List Char) (arg : ActionArg) : Option Nat :=
  match arg with
  | .none => some 0
  | .line n => some (lineOffset text n)
  | .lineRev n => some (lineOffsetRev text n)
  | .text p => strFind text p

def resolveUpperN (text : List Char) (arg : ActionArg) : Option Nat :=
  match arg with
  | .none => some (utf8Len text)
  | .line n => some (lineOffset text n)
  | .lineRev n => some (lineOffsetRev text n)
  | .text p => strRFind text p

def trimArgs (text : List Char) (aS aE : ActionArg) : Option (List Char) :=
  match resolveLowerN text aS with
  | some i0 =>
    (match resolveUpperN text aE with
     | some j0 =>
       if i0 ≤ j0 ∧ j0 ≤ utf8Len text then
         let i1 := j0 - utf8Len (rustTrimStart (byteSlice text i0 j0))
         let j1 := i1 + utf8Len (rustTrimEnd (byteSlice text i1 j0))
         some (byteSlice text i1 j1)
       else Option.none
     | Option.none => Option.none)
  | Option.none => Option.none

/-- The rendered block of a pair, as a list of lines. -/
def blockLines (trimmed : List Char) (k : Kind) : List (List Char) :=
  (rustLines trimmed).map (fun l => k.docPfx ++ l)

inductive LMode where
  | idle
  | pend (sline : List Char) (score : Core) (between : List (List Char))
deriving DecidableEq, Repr

/-- Lines held by the mode and not yet emitted. -/
def flushMode : LMode → List (List Char)
  | .idle => []
  | .pend sl _ bt => sl :: bt

/-- One line of the line-level engine: returns the new mode, the lines
emitted, the log entries added, and whether a changed pair was completed. -/
def stepLine (inc : Inc) (m : LMode) (l : List Char) :
    Option (LMode × List (List Char) × List (List Char × Bool) × Bool) :=
  match parseLine l with
  | Option.none =>
    (match m with
     | .idle => some (.idle, [l], [], false)
     | .pend sl sc bt => some (.pend sl sc (bt ++ [l]), [], [], false))
  | some Option.none => Option.none
  | some (some c) =>
    match c.action with
    | .start =>
      (match m with
       | .idle => some (.pend l c [], [], [], false)
       | .pend _ _ _ => Option.none)
    | .end_ =>
      (match m with
       | .idle => Option.none
       | .pend sl sc bt =>
         if sc.kind = c.kind ∧ sc.path = c.path then
           match inc sc.path with
           | .error _ => Option.none
           | .ok (rel, src) =>
             match trimArgs src sc.arg c.arg with
             | Option.none => Option.none
             | some tr =>
               let bls := blockLines tr sc.kind
               let isMod := decide (bt ≠ bls)
               if isMod ∧ (findMayBad (joinTrail bls)).isSome then Option.none
               else some (.idle, sl :: (bls ++ [l]), [(rel, isMod)], isMod)
         else Option.none)

def runLines (inc : Inc) : List (List Char) → LMode →
    Option (LMode × List (List Char) × List (List Char × Bool) × Bool)
  | [], m => some (m, [], [], false)
  | l :: ls, m =>
    match stepLine inc m l with
    | Option.none => Option.none
    | some (m1, e1, g1, b1) =>
      match runLines inc ls m1 with
      | Option.none => Option.none
      | some (m2, e2, g2, b2) => some (m2, e1 ++ e2, g1 ++ g2, b1 || b2)

/-- The correspondence between `apply`'s pending start attribute and the
line-level mode: `Wemit` is the list of lines consumed since `last_offset`
that the line model has already emitted. -/
def ModeRel (lastOff : Nat) (Wemit : List (List Char)) :
    Option Attr → LMode → Prop
  | Option.none, .idle => True
  | some S, .pend sl sc _bt =>
    S.kind = sc.kind ∧ S.path = sc.path ∧ S.arg = sc.arg ∧
      S.rangeEnd + 1 = lastOff + utf8Len (joinTrail (Wemit ++ [sl]))
  | _, _ => False

/-- Well-formed line-level mode: a pending start really parses as one and the
buffered between-lines are plain lines. -/
def WfMode : LMode → Prop
  | .idle => True
  | .pend sl sc bt =>
    parseLine sl = some (some sc) ∧ sc.action = .start ∧
      ∀ l ∈ bt, parseLine l = Option.none

/-! ### Concrete inputs used by the closed theorems -/

/-- An include environment with no readable file. -/
def incNone : Inc := fun _ => .error []

/-- A file whose directive stream is a single `start` with no later `end`. -/
def inputLoneStart : List Char := ("// #[include_doc(\"a\", start)]").toList

def attrLoneStart : Attr := ⟨0, 29, ['a'], .outer, .start, .none⟩

/-- An included file whose whole selected range is one directive-shaped line. -/
def srcPolluted : List Char := ("// #[include_doc(\"x\", start)]\n").toList

def incPolluted : Inc :=
  fun p => if p = ['f'] then .ok (['f'], srcPolluted) else .error []

def inputPolluted : List Char :=
  ("// #[include_doc(\"f\", start)]\nold\n// #[include_doc(\"f\", end)]").toList

/-- What `apply` produces on `inputPolluted`: the directive-shaped line is
spliced in, prefixed. -/
def outputPolluted : List Char :=
  ("// #[include_doc(\"f\", start)]\n/// // #[include_doc(\"x\", start)]\n// #[include_doc(\"f\", end)]").toList

/-- Included text for the reversed-range panic: the start anchor `"a"` first
occurs at byte 2, the end anchor `"b"` last occurs at byte 0. -/
def textRev : List Char := ("b\na").toList

def startRev : Attr := ⟨0, 0, [], .outer, .start, .text ['a']⟩

def endRev : Attr := ⟨0, 0, [], .outer, .end_, .text ['b']⟩

/-- A file with two consecutive `start` directives. -/
def inputTwoStarts : List Char :=
  ("// #[include_doc(\"a\", start)]\n// #[include_doc(\"b\", start)]").toList

def attrTwoStartsA : Attr := ⟨0, 29, ['a'], .outer, .start, .none⟩

def attrTwoStartsB : Attr := ⟨30, 59, ['b'], .outer, .start, .none⟩

/-- The scenario of §8: a start/end pair around placeholder text, including
`lib.txt` with contents `"hello\nworld\n"`. -/
def incLib : Inc := fun p =>
  if p = "lib.txt".toList then .ok ("lib.txt".toList, "hello\nworld\n".toList)
  else .error []

def inputScenario : List Char :=
  ("// #[include_doc(\"lib.txt\", start)]\nplaceholder\n// #[include_doc(\"lib.txt\", end)]").toList

def outputScenario : List Char :=
  ("// #[include_doc(\"lib.txt\", start)]\n/// hello\n/// world\n// #[include_doc(\"lib.txt\", end)]").toList

deriving instance DecidableEq for Except

/-! ### Basic lemmas about the text primitives -/

theorem utf8Size_pos (c : Char) : 1 ≤ c.utf8Size := by
  have := Char.utf8Size_pos c
  omega

theorem utf8Len_append (a b : List Char) : utf8Len (a ++ b) = utf8Len a + utf8Len b := by
  induction a with
  | nil => simp [utf8Len]
  | cons c t ih => simp [utf8Len, ih, Nat.add_assoc]

theorem byteDrop_zero (s : List Char) : byteDrop s 0 = s := by
  cases s <;> simp [byteDrop]

theorem byteTake_zero (s : List Char) : byteTake s 0 = [] := by
  cases s <;> simp [byteTake]

theorem byteDrop_append (a b : List Char) (k : Nat) :
    byteDrop (a ++ b) (utf8Len a + k) = byteDrop b k := by
  induction a generalizing k with
  | nil => simp [utf8Len]
  | cons c t ih =>
    have hpos := utf8Size_pos c
    have hne : c.utf8Size + utf8Len t + k ≠ 0 := by omega
    have harith : c.utf8Size + utf8Len t + k - c.utf8Size = utf8Len t + k := by omega
    simp only [List.cons_append, byteDrop, utf8Len, if_neg hne, harith]
    exact ih k

theorem byteDrop_len (a b : List Char) : byteDrop (a ++ b) (utf8Len a) = b := by
  have := byteDrop_append a b 0
  simpa [byteDrop_zero] using this

theorem byteTake_len (a b : List Char) : byteTake (a ++ b) (utf8Len a) = a := by
  induction a with
  | nil => simp [utf8Len, byteTake_zero]
  | cons c t ih =>
    have hpos := utf8Size_pos c
    have hne : c.utf8Size + utf8Len t ≠ 0 := by omega
    have harith : c.utf8Size + utf8Len t - c.utf8Size = utf8Len t := by omega
    simp only [List.cons_append, byteTake, utf8Len, if_neg hne, harith]
    exact congrArg (c :: ·) ih

/-- Slicing a middle piece out of an explicit concatenation. -/
theorem byteSlice_of_split (P A R : List Char) :
    byteSlice (P ++ (A ++ R)) (utf8Len P) (utf8Len P + utf8Len A) = A := by
  unfold byteSlice
  rw [byteDrop_len, Nat.add_sub_cancel_left, byteTake_len]

/-! ### Lemmas about lines -/

theorem joinNl_cons_cons (l l2 : List Char) (ls : List (List Char)) :
    joinNl (l :: l2 :: ls) = l ++ '\n' :: joinNl (l2 :: ls) := rfl

theorem joinNl_cons_of_ne_nil (l : List Char) (ls : List (List Char)) (h : ls ≠ []) :
    joinNl (l :: ls) = l ++ '\n' :: joinNl ls := by
  cases ls with
  | nil => exact absurd rfl h
  | cons a as => rfl

theorem joinTrail_append (x y : List (List Char)) :
    joinTrail (x ++ y) = joinTrail x ++ joinTrail y := by
  induction x with
  | nil => simp [joinTrail]
  | cons l ls ih => simp [joinTrail, ih]

theorem joinTrail_ne_nil (l : List Char) (ls : List (List Char)) :
    joinTrail (l :: ls) ≠ [] := by
  cases l <;> simp [joinTrail]

theorem joinNl_append_of_ne_nil (x y : List (List Char)) (h : y ≠ []) :
    joinNl (x ++ y) = joinTrail x ++ joinNl y := by
  induction x with
  | nil => simp [joinTrail]
  | cons l ls ih =>
    have hne : ls ++ y ≠ [] := by
      intro hc
      exact h (List.append_eq_nil.mp hc).2
    rw [List.cons_append, joinNl_cons_of_ne_nil _ _ hne, ih]
    simp [joinTrail]

theorem joinTrail_eq_joinNl_append (x : List (List Char)) (h : x ≠ []) :
    joinTrail x = joinNl x ++ ['\n'] := by
  induction x with
  | nil => exact absurd rfl h
  | cons l ls ih =>
    cases ls with
    | nil => simp [joinTrail, joinNl]
    | cons a as =>
      rw [joinTrail, ih (by simp), joinNl_cons_cons]
      simp

theorem joinTrail_eq_joinNl_snoc_nil (x : List (List Char)) :
    joinTrail x = joinNl (x ++ [[]]) := by
  induction x with
  | nil => simp [joinTrail, joinNl]
  | cons l ls ih =>
    have hne : ls ++ [([] : List Char)] ≠ [] := by simp
    rw [List.cons_append, joinNl_cons_of_ne_nil _ _ hne, joinTrail, ih]

theorem splitLinesAux_ne_nil (s acc : List Char) : splitLinesAux s acc ≠ [] := by
  induction s generalizing acc with
  | nil => simp [splitLinesAux]
  | cons c t ih =>
    by_cases h : c = '\n' <;> simp [splitLinesAux, h, ih]

theorem splitLines_ne_nil (s : List Char) : splitLines s ≠ [] := splitLinesAux_ne_nil s []

theorem joinNl_splitLinesAux (s : List Char) :
    ∀ acc, joinNl (splitLinesAux s acc) = acc.reverse ++ s := by
  induction s with
  | nil => intro acc; simp [splitLinesAux, joinNl]
  | cons c t ih =>
    intro acc
    by_cases h : c = '\n'
    · rw [splitLinesAux]
      simp only [if_pos h]
      rw [joinNl_cons_of_ne_nil _ _ (splitLinesAux_ne_nil t []), ih []]
      simp [h]
    · rw [splitLinesAux]
      simp only [if_neg h]
      rw [ih (c :: acc)]
      simp

/-- `joinNl` inverts `splitLines`. -/
theorem joinNl_splitLines (s : List Char) : joinNl (splitLines s) = s := by
  simpa using joinNl_splitLinesAux s []

theorem splitLinesAux_nlfree (s : List Char) :
    ∀ acc, '\n' ∉ acc → ∀ l ∈ splitLinesAux s acc, '\n' ∉ l := by
  induction s with
  | nil =>
    intro acc hacc l hl
    simp only [splitLinesAux, List.mem_singleton] at hl
    subst hl
    simpa using hacc
  | cons c t ih =>
    intro acc hacc l hl
    by_cases h : c = '\n'
    · rw [splitLinesAux] at hl
      simp only [if_pos h, List.mem_cons] at hl
      rcases hl with hl | hl
      · subst hl; simpa using hacc
      · exact ih [] (by simp) l hl
    · rw [splitLinesAux] at hl
      simp only [if_neg h] at hl
      exact ih (c :: acc) (by simp [hacc, Ne.symm h]) l hl

theorem splitLines_nlfree (s : List Char) : ∀ l ∈ splitLines s, '\n' ∉ l :=
  splitLinesAux_nlfree s [] (by simp)

theorem splitLinesAux_nlfree_head (l : List Char) (hl : '\n' ∉ l) :
    ∀ r acc, splitLinesAux (l ++ r) acc = splitLinesAux r (l.reverse ++ acc) := by
  induction l with
  | nil => intro r acc; simp
  | cons c t ih =>
    intro r acc
    have hc : c ≠ '\n' := by
      intro hc; exact hl (by simp [hc])
    rw [List.cons_append, splitLinesAux]
    simp only [if_neg hc]
    rw [ih (by intro h; exact hl (by simp [h])) r (c :: acc)]
    simp

/-- `splitLines` inverts `joinNl` on nonempty, newline-free line lists. -/
theorem splitLines_joinNl (L : List (List Char)) (hne : L ≠ [])
    (hfree : ∀ l ∈ L, '\n' ∉ l) : splitLines (joinNl L) = L := by
  induction L with
  | nil => exact absurd rfl hne
  | cons l ls ih =>
    cases ls with
    | nil =>
      show splitLinesAux (joinNl [l]) [] = [l]
      have : joinNl [l] = l ++ [] := by simp [joinNl]
      rw [this, splitLinesAux_nlfree_head l (hfree l (by simp)) [] []]
      simp [splitLinesAux]
    | cons a as =>
      rw [joinNl_cons_cons]
      show splitLinesAux (l ++ '\n' :: joinNl (a :: as)) [] = l :: a :: as
      rw [splitLinesAux_nlfree_head l (hfree l (by simp)) _ []]
      have ihx : splitLines (joinNl (a :: as)) = a :: as :=
        ih (by simp) (fun x hx => hfree x (List.mem_cons_of_mem _ hx))
      rw [splitLinesAux]
      simp only [if_pos rfl, List.append_nil, List.reverse_reverse]
      exact congrArg (l :: ·) ihx

/-! ### The doc-comment prefix defeats the directive shape -/

theorem parseLine_docPfx (k : Kind) (l : List Char) :
    parseLine (k.docPfx ++ l) = Option.none := by
  cases k <;> rfl

theorem rustLines_nlfree (s : List Char) : ∀ l ∈ rustLines s, '\n' ∉ l := by
  intro l hl
  unfold rustLines at hl
  simp only [List.mem_append] at hl
  rcases hl with hl | hl
  · rcases List.mem_map.mp hl with ⟨x, hx, hsx⟩
    have hxf : '\n' ∉ x := splitLines_nlfree s x (List.dropLast_subset _ hx)
    subst hsx
    unfold stripCr
    split
    · intro hc; exact hxf (List.dropLast_subset _ hc)
    · exact hxf
  · rcases h : (splitLines s).getLast? with _ | lst
    · simp [h] at hl
    · rcases lst with _ | ⟨c, cs⟩
      · simp [h] at hl
      · simp only [h] at hl
        simp only [List.mem_singleton] at hl
        subst hl
        have hmem : (c :: cs) ∈ (splitLines s).getLast? := by rw [h]; rfl
        rcases List.mem_getLast?_eq_getLast hmem with ⟨hne2, heq⟩
        rw [heq]
        exact splitLines_nlfree s _ (List.getLast_mem hne2)

theorem toDocComment_eq_joinTrail (s : List Char) (k : Kind) :
    toDocComment s k.docPfx = joinTrail (blockLines s k) := rfl

theorem blockLines_nlfree (s : List Char) (k : Kind) :
    ∀ l ∈ blockLines s k, '\n' ∉ l := by
  intro l hl
  rcases List.mem_map.mp hl with ⟨x, hx, hsx⟩
  subst hsx
  intro hc
  rcases List.mem_append.mp hc with hc | hc
  · cases k <;> simp [Kind.docPfx] at hc
  · exact rustLines_nlfree s x hx hc

/-- The pollution probe never finds anything in a rendered block: every line
carries the doc-comment prefix, which breaks the line-anchored shape. -/
theorem findMayBad_toDocComment (s : List Char) (k : Kind) :
    findMayBad (toDocComment s k.docPfx) = Option.none := by
  have hsplit : splitLines (toDocComment s k.docPfx) = blockLines s k ++ [[]] := by
    rw [toDocComment_eq_joinTrail, joinTrail_eq_joinNl_snoc_nil]
    apply splitLines_joinNl
    · simp
    · intro l hl
      rcases List.mem_append.mp hl with hl | hl
      · exact blockLines_nlfree s k l hl
      · simp only [List.mem_singleton] at hl
        subst hl; simp
  have hstream : ∀ (off : Nat) (L : List (List Char)),
      (∀ l ∈ L, parseLine l = Option.none) → streamFrom off L = [] := by
    intro off L
    induction L generalizing off with
    | nil => intro _; rfl
    | cons l ls ih =>
      intro h
      rw [streamFrom, itemOfLine, h l (by simp)]
      exact ih _ (fun x hx => h x (by simp [hx]))
  unfold findMayBad findIter
  rw [hsplit, hstream]
  intro l hl
  rcases List.mem_append.mp hl with hl | hl
  · rcases List.mem_map.mp hl with ⟨x, _, hsx⟩
    subst hsx
    exact parseLine_docPfx k x
  · simp only [List.mem_singleton] at hl
    subst hl; rfl

/-! ### The claims -/

/-- C1: the claim says a directive stream ending while a `Start` is still
pending makes `apply` return an unmatched-start error for that start.  The
code does the opposite: the loop of `apply` ends without ever examining the
pending slot (first conjunct: the empty-stream case of the loop succeeds for
every state, pending start or not), and on the concrete failing input - a
file that is a single `start` directive - `apply` succeeds with `Unchanged`
and an empty log instead of erroring. -/
theorem c1_lone_start_succeeds :
    (∀ (inc : Inc) (input text : List Char) (pending : Option Attr) (modif : Bool)
      (lastOff : Nat) (logs : List (List Char × Bool)),
      applyGo inc input [] pending text modif lastOff logs =
        .ok ⟨if modif then some (text ++ byteDrop input lastOff) else Option.none, logs⟩) ∧
    findIter inputLoneStart = [.ok attrLoneStart] ∧
    attrLoneStart.action = Action.start ∧
    apply incNone inputLoneStart = .ok ⟨Option.none, []⟩ :=
  ⟨fun _ _ _ _ _ _ _ => rfl, by decide, rfl, by decide⟩

/-- C2: the claim says a pair whose included range contains a directive-shaped
line fails with the pollution error.  It cannot: the probe runs on the
rendered block, whose every line starts with the doc-comment prefix, and the
prefix breaks the line-anchored directive shape, so the probe never finds
anything (second conjunct) and the substitution succeeds.  Concretely,
`srcPolluted` is one directive-shaped line (first conjunct), yet `apply`
splices it and returns `Modified`, with no `SourceContent` error. -/
theorem c2_pollution_probe_dead :
    (findMayBad srcPolluted).isSome = true ∧
    (∀ (s : List Char) (k : Kind), findMayBad (toDocComment s k.docPfx) = Option.none) ∧
    apply incPolluted inputPolluted = .ok ⟨some outputPolluted, [(['f'], true)]⟩ :=
  ⟨by decide, findMayBad_toDocComment, by decide⟩

/-- C3: the claim says `trim` returns an error when the resolved lower bound
exceeds the upper bound and never panics.  The code panics: Rust evaluates
`text[index_start..index_end]` with the unordered bounds.  On `textRev` the
start anchor resolves to byte 2 and the end anchor to byte 0, and `trim`
panics (last conjunct); the first conjunct states the panic in general. -/
theorem c3_trim_reversed_panics :
    (∀ (text : List Char) (s e : Attr) (i j : Nat),
      resolveLower text s = .ok i → resolveUpper text e = .ok j → j < i →
      trim text s e = .panics) ∧
    resolveLower textRev startRev = .ok 2 ∧
    resolveUpper textRev endRev = .ok 0 ∧
    trim textRev startRev endRev = .panics := by
  refine ⟨?_, by decide, by decide, by decide⟩
  intro text s e i j hi hj hlt
  unfold trim
  rw [hi, hj]
  have : ¬(i ≤ j ∧ j ≤ utf8Len text) := by omega
  simp [this]

/-- C5: a `Start` directive arriving while another `Start` is pending makes
`make_pair` return `MissingAttr` reporting the earlier pending start (first
conjunct, for every pending attribute and every arriving start), and `apply`
aborts the file with that error instead of continuing (second conjunct, for
every stream whose first two items are starts). -/
theorem c5_start_while_pending (prev : Attr) (r1 r2 : Nat) (pth : List Char)
    (k : Kind) (arg : ActionArg) :
    makePair (some prev) (.ok ⟨r1, r2, pth, k, .start, arg⟩) =
      .error (.missingAttr prev) ∧
    ∀ (inc : Inc) (input : List Char) (a1 a2 : Attr)
      (rest : List (Except BadAttr Attr)),
      findIter input = .ok a1 :: .ok a2 :: rest →
      a1.action = Action.start → a2.action = Action.start →
      apply inc input = .err (.missingAttr a1) := by
  constructor
  · rfl
  · intro inc input a1 a2 rest hfind ha1 ha2
    unfold apply
    rw [hfind]
    simp only [applyGo, makePair, ha1, ha2]

/-- C6: pairing a pending start with an arriving end emits the pair exactly
when visibility kind and path both match; a kind mismatch yields the
kind-mismatch error (kind is compared first), a path mismatch with matching
kinds yields the path-mismatch error, and a pair is only ever emitted when
both fields match. -/
theorem c6_pair_match_mismatch (prev : Attr) (r1 r2 : Nat) (pth : List Char)
    (k : Kind) (arg : ActionArg) :
    (prev.kind = k → prev.path = pth →
      makePair (some prev) (.ok ⟨r1, r2, pth, k, .end_, arg⟩) =
        .ok (Option.none, some (prev, ⟨r1, r2, pth, k, .end_, arg⟩))) ∧
    (prev.kind ≠ k →
      makePair (some prev) (.ok ⟨r1, r2, pth, k, .end_, arg⟩) =
        .error (.mismatchAttr prev ⟨r1, r2, pth, k, .end_, arg⟩ .kind)) ∧
    (prev.kind = k → prev.path ≠ pth →
      makePair (some prev) (.ok ⟨r1, r2, pth, k, .end_, arg⟩) =
        .error (.mismatchAttr prev ⟨r1, r2, pth, k, .end_, arg⟩ .path)) ∧
    (∀ (st : Option Attr) (pr : Attr × Attr),
      makePair (some prev) (.ok ⟨r1, r2, pth, k, .end_, arg⟩) = .ok (st, some pr) →
      prev.kind = k ∧ prev.path = pth) := by
  refine ⟨?_, ?_, ?_, ?_⟩
  · intro hk hp
    simp [makePair, Attr.mismatch, hk, hp]
  · intro hk
    simp [makePair, Attr.mismatch, hk]
  · intro hk hp
    simp [makePair, Attr.mismatch, hk, hp]
  · intro st pr h
    by_cases hk : prev.kind = k
    · by_cases hp : prev.path = pth
      · exact ⟨hk, hp⟩
      · exfalso
        simp [makePair, Attr.mismatch, hk, hp] at h
    · exfalso
      simp [makePair, Attr.mismatch, hk] at h

/-! ### Position tracking (text_pos.rs): supporting lemmas and C10 -/

theorem fromStrOffsetGo_eq_foldl (s : List Char) :
    ∀ (off : Nat) (v : TextPos),
      fromStrOffsetGo s off v = (charsBefore s off).foldl posStep v := by
  induction s with
  | nil => intro off v; rfl
  | cons c t ih =>
    intro off v
    by_cases h : off = 0
    · simp [fromStrOffsetGo, charsBefore, h]
    · simp [fromStrOffsetGo, charsBefore, h, ih]

theorem fromStrOffsetGo_zero (s : List Char) (v : TextPos) :
    fromStrOffsetGo s 0 v = v := by
  cases s <;> simp [fromStrOffsetGo]

theorem posFold_closed (xs : List Char) :
    xs.foldl posStep ⟨1, 1⟩ = ⟨1 + nlCount xs, 1 + sinceLastNl xs⟩ := by
  induction xs using List.reverseRecOn with
  | nil => rfl
  | append_singleton xs c ih =>
    rw [List.foldl_append, List.foldl_cons, List.foldl_nil, ih]
    by_cases h : c = '\n'
    · subst h
      have h1 : nlCount (xs ++ ['\n']) = nlCount xs + 1 := by
        simp [nlCount, List.countP_append, List.countP_cons]
      have h2 : sinceLastNl (xs ++ ['\n']) = 0 := by
        simp [sinceLastNl, List.reverse_append, List.takeWhile_cons]
      unfold posStep
      rw [if_pos rfl, h1, h2]
      have e1 : 1 + nlCount xs + 1 = 1 + (nlCount xs + 1) := by omega
      simp only [e1]
    · have h1 : nlCount (xs ++ [c]) = nlCount xs := by
        simp [nlCount, List.countP_append, List.countP_cons, h]
      have h2 : sinceLastNl (xs ++ [c]) = sinceLastNl xs + 1 := by
        simp [sinceLastNl, List.reverse_append, List.takeWhile_cons, h]
      unfold posStep
      rw [if_neg h, h1, h2]
      have e1 : 1 + sinceLastNl xs + 1 = 1 + (sinceLastNl xs + 1) := by omega
      simp only [e1]

theorem charsBefore_zero (s : List Char) : charsBefore s 0 = [] := by
  cases s <;> simp [charsBefore]

theorem charsBefore_all (s : List Char) : ∀ k, charsBefore s (utf8Len s + k) = s := by
  induction s with
  | nil => intro k; rfl
  | cons c t ih =>
    intro k
    have hpos := utf8Size_pos c
    have hne : utf8Len (c :: t) + k ≠ 0 := by simp [utf8Len]; omega
    have harith : utf8Len (c :: t) + k - c.utf8Size = utf8Len t + k := by
      simp [utf8Len]; omega
    rw [charsBefore]
    simp only [if_neg hne, harith, ih k]

/-- C10: `TextPos::from_str_offset` is 1-based and character-counted: the line
is one more than the number of `'\n'` characters strictly before the offset,
the column one more than the number of characters after the last preceding
`'\n'` (or the start); offset 0 yields 1:1, and offsets at or past the end of
the text yield the position of the end. -/
theorem c10_text_pos (s : List Char) (off k : Nat) :
    TextPos.fromStrOffset s off =
      ⟨1 + nlCount (charsBefore s off), 1 + sinceLastNl (charsBefore s off)⟩ ∧
    TextPos.fromStrOffset s 0 = ⟨1, 1⟩ ∧
    TextPos.fromStrOffset s (utf8Len s + k) = TextPos.fromStrOffset s (utf8Len s) := by
  refine ⟨?_, ?_, ?_⟩
  · rw [TextPos.fromStrOffset, fromStrOffsetGo_eq_foldl, posFold_closed]
  · rw [TextPos.fromStrOffset, fromStrOffsetGo_zero]
  · rw [TextPos.fromStrOffset, TextPos.fromStrOffset, fromStrOffsetGo_eq_foldl,
      fromStrOffsetGo_eq_foldl, charsBefore_all s k]
    have := charsBefore_all s 0
    rw [Nat.add_zero] at this
    rw [this]

/-! ### Line-anchor arithmetic (main.rs): supporting lemmas and C7 -/

theorem lineOffsetGo_total (t : List Char) :
    ∀ (line idx total : Nat), nlCount t < line →
      lineOffsetGo t line idx total = total := by
  induction t with
  | nil => intro line idx total _; rfl
  | cons c t ih =>
    intro line idx total h
    by_cases hc : c = '\n'
    · have hcount : nlCount (c :: t) = nlCount t + 1 := by
        simp [nlCount, List.countP_cons, hc]
      rw [hcount] at h
      have hne : line ≠ 1 := by omega
      rw [lineOffsetGo, if_pos hc, if_neg hne]
      exact ih _ _ _ (by omega)
    · have hcount : nlCount (c :: t) = nlCount t := by
        simp [nlCount, List.countP_cons, hc]
      rw [hcount] at h
      rw [lineOffsetGo, if_neg hc]
      exact ih _ _ _ h

theorem nl_mem_of_getLast (t : List Char) (h : t.getLast? = some '\n') : '\n' ∈ t := by
  have hmem : '\n' ∈ t.getLast? := by rw [h]; rfl
  rcases List.mem_getLast?_eq_getLast hmem with ⟨hne, heq⟩
  rw [heq]
  exact List.getLast_mem hne

theorem one_le_nlCount_of_mem (t : List Char) (h : '\n' ∈ t) : 1 ≤ nlCount t := by
  have : 0 < nlCount t := List.countP_pos_iff.mpr ⟨'\n', h, by simp⟩
  omega

theorem lineOffsetGo_ends_nl (t : List Char) :
    ∀ idx, t.getLast? = some '\n' →
      lineOffsetGo t (nlCount t) idx (idx + utf8Len t) = idx + utf8Len t := by
  induction t with
  | nil => intro idx h; simp at h
  | cons c t ih =>
    intro idx h
    cases t with
    | nil =>
      have hc : c = '\n' := by simpa using h
      subst hc
      rfl
    | cons c2 t2 =>
      have hlast : (c2 :: t2).getLast? = some '\n' := by
        rwa [List.getLast?_cons_cons] at h
      by_cases hc : c = '\n'
      · have hcount : nlCount (c :: c2 :: t2) = nlCount (c2 :: t2) + 1 := by
          simp [nlCount, List.countP_cons, hc]
        have hge := one_le_nlCount_of_mem _ (nl_mem_of_getLast _ hlast)
        have hne : nlCount (c2 :: t2) + 1 ≠ 1 := by omega
        rw [hcount, lineOffsetGo, if_pos hc, if_neg hne]
        have harith : nlCount (c2 :: t2) + 1 - 1 = nlCount (c2 :: t2) := by omega
        rw [harith]
        have hsz : c.utf8Size = 1 := by rw [hc]; rfl
        have htot : idx + utf8Len (c :: c2 :: t2) = (idx + 1) + utf8Len (c2 :: t2) := by
          simp [utf8Len, hsz]; omega
        rw [htot, hsz]
        exact ih (idx + 1) hlast
      · have hcount : nlCount (c :: c2 :: t2) = nlCount (c2 :: t2) := by
          simp [nlCount, List.countP_cons, hc]
        rw [hcount, lineOffsetGo, if_neg hc]
        have htot : idx + utf8Len (c :: c2 :: t2) = (idx + c.utf8Size) + utf8Len (c2 :: t2) := by
          simp [utf8Len]; omega
        rw [htot]
        exact ih (idx + c.utf8Size) hlast

theorem splitLinesAux_length (s : List Char) :
    ∀ acc, (splitLinesAux s acc).length = nlCount s + 1 := by
  induction s with
  | nil => intro acc; simp [splitLinesAux, nlCount]
  | cons c t ih =>
    intro acc
    by_cases hc : c = '\n'
    · simp [splitLinesAux, hc, ih, nlCount, List.countP_cons]
    · simp [splitLinesAux, hc, ih, nlCount, List.countP_cons]

theorem splitLinesAux_getLast_nil_iff (s : List Char) :
    ∀ acc, ((splitLinesAux s acc).getLast? = some [] ↔
      (s = [] ∧ acc = []) ∨ s.getLast? = some '\n') := by
  induction s with
  | nil =>
    intro acc
    have h0 : splitLinesAux ([] : List Char) acc = [acc.reverse] := rfl
    have h1 : ([acc.reverse] : List (List Char)).getLast? = some acc.reverse := rfl
    rw [h0, h1]
    simp [List.reverse_eq_nil_iff]
  | cons c t ih =>
    intro acc
    by_cases hc : c = '\n'
    · rw [splitLinesAux, if_pos hc]
      obtain ⟨x, xs, hxx⟩ : ∃ x xs, splitLinesAux t [] = x :: xs := by
        cases h : splitLinesAux t [] with
        | nil => exact absurd h (splitLinesAux_ne_nil t [])
        | cons x xs => exact ⟨x, xs, rfl⟩
      rw [hxx, List.getLast?_cons_cons, ← hxx, ih []]
      cases t with
      | nil =>
        simp [hc]
      | cons c2 t2 =>
        rw [List.getLast?_cons_cons]
        simp
    · rw [splitLinesAux, if_neg hc, ih (c :: acc)]
      cases t with
      | nil =>
        simp [hc, Ne.symm hc]
      | cons c2 t2 =>
        rw [List.getLast?_cons_cons]
        simp

theorem linesCount_nil : linesCount [] = 0 := rfl

theorem linesCount_ends_nl (s : List Char) (h : s.getLast? = some '\n') :
    linesCount s = nlCount s := by
  have hlast : (splitLines s).getLast? = some [] :=
    (splitLinesAux_getLast_nil_iff s []).mpr (Or.inr h)
  unfold linesCount rustLines
  rw [hlast]
  simp only [List.length_append, List.length_map, List.length_dropLast,
    List.length_nil]
  rw [show (splitLines s).length = nlCount s + 1 from splitLinesAux_length s []]
  omega

theorem linesCount_not_ends_nl (s : List Char) (hne : s ≠ [])
    (h : s.getLast? ≠ some '\n') : linesCount s = nlCount s + 1 := by
  have hlast : (splitLines s).getLast? ≠ some [] := by
    intro hc
    rcases (splitLinesAux_getLast_nil_iff s []).mp hc with ⟨h1, _⟩ | h2
    · exact hne h1
    · exact h h2
  rcases hl : (splitLines s).getLast? with _ | lst
  · exact absurd (List.getLast?_eq_none_iff.mp hl) (splitLines_ne_nil s)
  · rcases lst with _ | ⟨c, cs⟩
    · exact absurd hl hlast
    · unfold linesCount rustLines
      rw [hl]
      simp only [List.length_append, List.length_map, List.length_dropLast,
        List.length_singleton]
      rw [show (splitLines s).length = nlCount s + 1 from splitLinesAux_length s []]
      omega

/-- C7: `LineFromStart(1)` (and `LineFromStart(0)`) resolves to offset 0,
`LineFromEnd(0)` resolves to the full byte length, and `LineFromStart(n)`
for `n` above the line count (lines in the sense of Rust `str::lines`)
resolves to the byte length of the text. -/
theorem c7_line_anchor_arithmetic (t : List Char) (n : Nat) :
    lineOffset t 0 = 0 ∧ lineOffset t 1 = 0 ∧ lineOffsetRev t 0 = utf8Len t ∧
    lineOffset t (linesCount t + n + 1) = utf8Len t := by
  refine ⟨by simp [lineOffset], by simp [lineOffset], by simp [lineOffsetRev], ?_⟩
  by_cases ht : t = []
  · subst ht
    by_cases hn : n = 0
    · simp [hn, lineOffset, linesCount_nil, utf8Len]
    · have : ¬(linesCount [] + n + 1 ≤ 1) := by
        rw [linesCount_nil]; omega
      rw [lineOffset, if_neg this]
      rfl
  · by_cases hnl : t.getLast? = some '\n'
    · rw [linesCount_ends_nl t hnl]
      have hge := one_le_nlCount_of_mem t (nl_mem_of_getLast t hnl)
      have hgt : ¬(nlCount t + n + 1 ≤ 1) := by omega
      rw [lineOffset, if_neg hgt]
      have harith : nlCount t + n + 1 - 1 = nlCount t + n := by omega
      rw [harith]
      rcases Nat.eq_zero_or_pos n with hn | hn
      · subst hn
        have := lineOffsetGo_ends_nl t 0 hnl
        simpa using this
      · exact lineOffsetGo_total t _ _ _ (by omega)
    · rw [linesCount_not_ends_nl t ht hnl]
      have hgt : ¬(nlCount t + 1 + n + 1 ≤ 1) := by omega
      rw [lineOffset, if_neg hgt]
      exact lineOffsetGo_total t _ _ _ (by omega)

/-! ### Substring search: supporting lemmas and C8 -/

theorem isPrefixOf_iff_exists (p s : List Char) :
    p.isPrefixOf s = true ↔ ∃ b, s = p ++ b := by
  rw [List.isPrefixOf_iff_prefix]
  constructor
  · rintro ⟨b, rfl⟩
    exact ⟨b, rfl⟩
  · rintro ⟨b, rfl⟩
    exact ⟨b, rfl⟩

theorem strFindGo_some (p : List Char) :
    ∀ (t : List Char) (idx j : Nat), strFindGo t p idx = some j →
      (∃ a b, t = a ++ p ++ b ∧ idx + utf8Len a = j) ∧
      (∀ a b, t = a ++ p ++ b → j ≤ idx + utf8Len a) := by
  intro t
  induction t with
  | nil =>
    intro idx j h
    rw [strFindGo] at h
    split at h
    · rename_i hp
      rcases (isPrefixOf_iff_exists p []).mp hp with ⟨b, hb⟩
      have hp0 : p = [] := by
        cases p with
        | nil => rfl
        | cons x xs => simp at hb
      cases h
      subst hp0
      refine ⟨⟨[], [], by simp, by simp [utf8Len]⟩, ?_⟩
      intro a b hab
      have : a = [] := by
        cases a with
        | nil => rfl
        | cons x xs => simp at hab
      subst this
      simp [utf8Len]
    · cases h
  | cons c t ih =>
    intro idx j h
    rw [strFindGo] at h
    split at h
    · rename_i hp
      cases h
      rcases (isPrefixOf_iff_exists p (c :: t)).mp hp with ⟨b, hb⟩
      refine ⟨⟨[], b, by simpa [utf8Len] using hb, by simp [utf8Len]⟩, ?_⟩
      intro a b2 _
      omega
    · rename_i hp
      obtain ⟨⟨a, b, ht, hj⟩, hmin⟩ := ih (idx + c.utf8Size) j h
      constructor
      · refine ⟨c :: a, b, by rw [ht]; simp, ?_⟩
        simp only [utf8Len]
        omega
      · intro a2 b2 heq
        cases a2 with
        | nil =>
          exfalso
          apply hp
          exact (isPrefixOf_iff_exists p (c :: t)).mpr ⟨b2, by simpa using heq⟩
        | cons c2 a2t =>
          have hc2 : c2 = c := by
            have := congrArg (fun l => l.head?) heq
            simpa using this.symm
          subst hc2
          have hteq : t = a2t ++ p ++ b2 := by
            have := congrArg (fun l => l.tail) heq
            simpa using this
          have := hmin a2t b2 hteq
          simp only [utf8Len]
          omega

theorem strFindGo_none (p : List Char) :
    ∀ (t : List Char) (idx : Nat), strFindGo t p idx = Option.none →
      ∀ a b, t ≠ a ++ p ++ b := by
  intro t
  induction t with
  | nil =>
    intro idx h a b hab
    rw [strFindGo] at h
    split at h
    · cases h
    · rename_i hp
      apply hp
      have ha : a = [] := by
        cases a with
        | nil => rfl
        | cons x xs => simp at hab
      subst ha
      have hb : p ++ b = [] := by simpa using hab.symm
      rcases List.append_eq_nil.mp hb with ⟨hp0, _⟩
      rw [hp0]
      rfl
  | cons c t ih =>
    intro idx h a b hab
    rw [strFindGo] at h
    split at h
    · cases h
    · rename_i hp
      cases a with
      | nil =>
        apply hp
        exact (isPrefixOf_iff_exists p (c :: t)).mpr ⟨b, by simpa using hab⟩
      | cons c2 a2t =>
        have hteq : t = a2t ++ p ++ b := by
          have := congrArg (fun l => l.tail) hab
          simpa using this
        exact ih (idx + c.utf8Size) h a2t b hteq

theorem strRFindGo_none (p : List Char) :
    ∀ (t : List Char) (idx : Nat), strRFindGo t p idx = Option.none →
      ∀ a b, t ≠ a ++ p ++ b := by
  intro t
  induction t with
  | nil =>
    intro idx h a b hab
    rw [strRFindGo] at h
    split at h
    · cases h
    · rename_i hp
      apply hp
      have ha : a = [] := by
        cases a with
        | nil => rfl
        | cons x xs => simp at hab
      subst ha
      have hb : p ++ b = [] := by simpa using hab.symm
      rcases List.append_eq_nil.mp hb with ⟨hp0, _⟩
      rw [hp0]
      rfl
  | cons c t ih =>
    intro idx h a b hab
    rw [strRFindGo] at h
    rcases hrec : strRFindGo t p (idx + c.utf8Size) with _ | j2
    · rw [hrec] at h
      by_cases hp : p.isPrefixOf (c :: t) = true
      · rw [if_pos hp] at h
        cases h
      · cases a with
        | nil =>
          apply hp
          exact (isPrefixOf_iff_exists p (c :: t)).mpr ⟨b, by simpa using hab⟩
        | cons c2 a2t =>
          have hteq : t = a2t ++ p ++ b := by
            have := congrArg (fun l => l.tail) hab
            simpa using this
          exact ih (idx + c.utf8Size) hrec a2t b hteq
    · rw [hrec] at h
      cases h

theorem strRFindGo_some (p : List Char) :
    ∀ (t : List Char) (idx j : Nat), strRFindGo t p idx = some j →
      (∃ a b, t = a ++ p ++ b ∧ idx + utf8Len a = j) ∧
      (∀ a b, t = a ++ p ++ b → idx + utf8Len a ≤ j) := by
  intro t
  induction t with
  | nil =>
    intro idx j h
    rw [strRFindGo] at h
    split at h
    · rename_i hp
      rcases (isPrefixOf_iff_exists p []).mp hp with ⟨b, hb⟩
      have hp0 : p = [] := by
        cases p with
        | nil => rfl
        | cons x xs => simp at hb
      cases h
      subst hp0
      refine ⟨⟨[], [], by simp, by simp [utf8Len]⟩, ?_⟩
      intro a b hab
      have : a = [] := by
        cases a with
        | nil => rfl
        | cons x xs => simp at hab
      subst this
      simp [utf8Len]
    · cases h
  | cons c t ih =>
    intro idx j h
    rw [strRFindGo] at h
    rcases hrec : strRFindGo t p (idx + c.utf8Size) with _ | j2
    · rw [hrec] at h
      by_cases hp : p.isPrefixOf (c :: t) = true
      · rw [if_pos hp] at h
        injection h with hj
        subst hj
        rcases (isPrefixOf_iff_exists p (c :: t)).mp hp with ⟨b, hb⟩
        refine ⟨⟨[], b, by simpa [utf8Len] using hb, by simp [utf8Len]⟩, ?_⟩
        intro a b2 hab
        cases a with
        | nil => simp [utf8Len]
        | cons c2 a2t =>
          exfalso
          have hteq : t = a2t ++ p ++ b2 := by
            have := congrArg (fun l => l.tail) hab
            simpa using this
          exact strRFindGo_none p t (idx + c.utf8Size) hrec a2t b2 hteq
      · rw [if_neg hp] at h
        cases h
    · rw [hrec] at h
      injection h with hj
      subst hj
      obtain ⟨⟨a, b, ht, hj⟩, hmax⟩ := ih (idx + c.utf8Size) j2 hrec
      constructor
      · refine ⟨c :: a, b, by rw [ht]; simp, ?_⟩
        simp only [utf8Len]
        omega
      · intro a2 b2 heq
        cases a2 with
        | nil =>
          simp only [utf8Len]
          omega
        | cons c2 a2t =>
          have hc2 : c2 = c := by
            have := congrArg (fun l => l.head?) heq
            simpa using this.symm
          subst hc2
          have hteq : t = a2t ++ p ++ b2 := by
            have := congrArg (fun l => l.tail) heq
            simpa using this
          have := hmax a2t b2 hteq
          simp only [utf8Len]
          omega

/-- C8: for `AnchorText` arguments, the lower bound resolves to the byte
offset of the first occurrence of the start anchor, the upper bound to the
byte offset of the last occurrence of the end anchor, and an absent anchor
makes `trim` fail with a text-not-found error tied to the start directive
(lower bound) or to the end directive (upper bound), respectively. -/
theorem c8_anchor_text_resolution (t p q : List Char) (a1 a2 b1 b2 : Nat)
    (pthS pthE : List Char) (kS kE : Kind) (acS acE : Action) :
    (∀ i, firstOcc t p i →
      resolveLower t ⟨a1, a2, pthS, kS, acS, .text p⟩ = .ok i) ∧
    (∀ i, resolveLower t ⟨a1, a2, pthS, kS, acS, .text p⟩ = .ok i →
      firstOcc t p i) ∧
    ((∀ i, ¬ occursAt t p i) →
      resolveLower t ⟨a1, a2, pthS, kS, acS, .text p⟩ =
        .error (.textNofFound ⟨a1, a2, pthS, kS, acS, .text p⟩) ∧
      trim t ⟨a1, a2, pthS, kS, acS, .text p⟩ ⟨b1, b2, pthE, kE, acE, .text q⟩ =
        .err (.textNofFound ⟨a1, a2, pthS, kS, acS, .text p⟩)) ∧
    (∀ j, lastOcc t q j →
      resolveUpper t ⟨b1, b2, pthE, kE, acE, .text q⟩ = .ok j) ∧
    (∀ j, resolveUpper t ⟨b1, b2, pthE, kE, acE, .text q⟩ = .ok j →
      lastOcc t q j) ∧
    ((∃ i, occursAt t p i) → (∀ j, ¬ occursAt t q j) →
      resolveUpper t ⟨b1, b2, pthE, kE, acE, .text q⟩ =
        .error (.textNofFound ⟨b1, b2, pthE, kE, acE, .text q⟩) ∧
      trim t ⟨a1, a2, pthS, kS, acS, .text p⟩ ⟨b1, b2, pthE, kE, acE, .text q⟩ =
        .err (.textNofFound ⟨b1, b2, pthE, kE, acE, .text q⟩)) := by
  have hlow : ∀ i, strFind t p = some i → firstOcc t p i := by
    intro i hf
    obtain ⟨⟨a, b, ht, hj⟩, hmin⟩ := strFindGo_some p t 0 i hf
    refine ⟨⟨a, b, ht, by omega⟩, ?_⟩
    intro j ⟨a2, b2, ht2, hj2⟩
    have := hmin a2 b2 ht2
    omega
  have hup : ∀ j, strRFind t q = some j → lastOcc t q j := by
    intro j hf
    obtain ⟨⟨a, b, ht, hj⟩, hmax⟩ := strRFindGo_some q t 0 j hf
    refine ⟨⟨a, b, ht, by omega⟩, ?_⟩
    intro j2 ⟨a2, b2, ht2, hj2⟩
    have := hmax a2 b2 ht2
    omega
  refine ⟨?_, ?_, ?_, ?_, ?_, ?_⟩
  · intro i hfirst
    rcases hf : strFind t p with _ | j
    · exfalso
      rcases hfirst.1 with ⟨a, b, ht, _⟩
      exact strFindGo_none p t 0 hf a b ht
    · have hj := hlow j hf
      have hij : i = j := by
        have h1 := hfirst.2 j hj.1
        have h2 := hj.2 i hfirst.1
        omega
      subst hij
      simp [resolveLower, hf]
  · intro i h
    rcases hf : strFind t p with _ | j
    · simp [resolveLower, hf] at h
    · simp [resolveLower, hf] at h
      subst h
      exact hlow j hf
  · intro hno
    rcases hf : strFind t p with _ | j
    · constructor
      · simp [resolveLower, hf]
      · simp [trim, resolveLower, hf]
    · exfalso
      obtain ⟨⟨a, b, ht, hj⟩, _⟩ := strFindGo_some p t 0 j hf
      exact hno (0 + utf8Len a) ⟨a, b, ht, by omega⟩
  · intro j hlast
    rcases hf : strRFind t q with _ | j2
    · exfalso
      rcases hlast.1 with ⟨a, b, ht, _⟩
      exact strRFindGo_none q t 0 hf a b ht
    · have hj2 := hup j2 hf
      have hjj : j = j2 := by
        have h1 := hlast.2 j2 hj2.1
        have h2 := hj2.2 j hlast.1
        omega
      subst hjj
      simp [resolveUpper, hf]
  · intro j h
    rcases hf : strRFind t q with _ | j2
    · simp [resolveUpper, hf] at h
    · simp [resolveUpper, hf] at h
      subst h
      exact hup j2 hf
  · intro hsome hno
    rcases hfq : strRFind t q with _ | j
    · rcases hfp : strFind t p with _ | i0
      · exfalso
        rcases hsome with ⟨i, a, b, ht, _⟩
        exact strFindGo_none p t 0 hfp a b ht
      · constructor
        · simp [resolveUpper, hfq]
        · simp [trim, resolveLower, resolveUpper, hfp, hfq]
    · exfalso
      obtain ⟨⟨a, b, ht, hj⟩, _⟩ := strRFindGo_some q t 0 j hfq
      exact hno (0 + utf8Len a) ⟨a, b, ht, by omega⟩

/-! ### The splice (apply): supporting lemmas and C9 -/

theorem makePair_pair_none (pending : Option Attr) (item : Except BadAttr Attr)
    (p1 : Option Attr) (pr : Attr × Attr)
    (h : makePair pending item = .ok (p1, some pr)) : p1 = Option.none := by
  rcases item with e | a
  · simp [makePair] at h
  · obtain ⟨r1, r2, pth, k, ac, arg⟩ := a
    cases ac
    · rcases pending with _ | prev
      · simp [makePair] at h
      · simp [makePair] at h
    · rcases pending with _ | prev
      · simp [makePair] at h
      · rcases hm : prev.mismatch ⟨r1, r2, pth, k, .end_, arg⟩ with _ | m
        · simp [makePair, hm] at h
          exact h.1.symm
        · simp [makePair, hm] at h

theorem isModified_false_iff (textNew input : List Char) (s e : Attr) :
    isModified textNew input s e = false ↔ pairUnchanged input s e textNew := by
  unfold isModified pairUnchanged
  split
  · rename_i t2 heq
    rw [heq, List.cons.injEq]
    simp only [true_and]
    rw [decide_eq_false_iff_not, not_not]
    exact eq_comm
  · rename_i hno
    constructor
    · intro h
      cases h
    · intro hc
      exact absurd hc (hno textNew)

theorem collectPairs_cons_skip (pending p1 : Option Attr) (item : Except BadAttr Attr)
    (rest : List (Except BadAttr Attr))
    (hmp : makePair pending item = .ok (p1, Option.none)) :
    collectPairs pending (item :: rest) = collectPairs p1 rest := by
  rw [collectPairs, hmp]

theorem collectPairs_cons_pair (pending p1 : Option Attr) (item : Except BadAttr Attr)
    (rest : List (Except BadAttr Attr)) (s e : Attr) (ps : List (Attr × Attr))
    (hmp : makePair pending item = .ok (p1, some (s, e)))
    (hrest : collectPairs p1 rest = .ok ps) :
    collectPairs pending (item :: rest) = .ok ((s, e) :: ps) := by
  have h1 : collectPairs pending (item :: rest) =
      (match collectPairs p1 rest with
       | Except.error e2 => Except.error e2
       | Except.ok ps2 => Except.ok ((s, e) :: ps2)) := by
    rw [collectPairs, hmp]
  rw [h1, hrest]

theorem applyGo_spec (inc : Inc) (input : List Char) :
    ∀ (items : List (Except BadAttr Attr)) (pending : Option Attr)
      (textAcc : List Char) (modif : Bool) (lastOff : Nat)
      (logs : List (List Char × Bool)) (r : ApplyResult),
      applyGo inc input items pending textAcc modif lastOff logs = .ok r →
      ∃ ps blocks, collectPairs pending items = .ok ps ∧
        List.Forall₂ (RenderedAs inc) ps blocks ∧
        (r.text = Option.none ↔ (modif = false ∧
          ∀ pb ∈ ps.zip blocks, pairUnchanged input pb.1.1 pb.1.2 pb.2)) ∧
        (∀ t2, r.text = some t2 →
          t2 = textAcc ++ spliceFrom input lastOff (ps.zip blocks)) := by
  intro items
  induction items with
  | nil =>
    intro pending textAcc modif lastOff logs r h
    simp only [applyGo] at h
    injection h with h
    subst h
    cases modif
    · refine ⟨[], [], rfl, List.Forall₂.nil, ?_, ?_⟩
      · constructor
        · intro _
          exact ⟨rfl, fun pb hpb => absurd hpb (List.not_mem_nil pb)⟩
        · intro _
          rfl
      · intro t2 ht
        exact Option.noConfusion ht
    · refine ⟨[], [], rfl, List.Forall₂.nil, ?_, ?_⟩
      · constructor
        · intro hc
          exact Option.noConfusion hc
        · rintro ⟨hc, _⟩
          exact Bool.noConfusion hc
      · intro t2 ht
        have hx : textAcc ++ byteDrop input lastOff = t2 := Option.some.inj ht
        rw [← hx]
        rfl
  | cons item rest ih =>
    intro pending textAcc modif lastOff logs r h
    rw [applyGo] at h
    split at h
    · cases h
    · rename_i pending1 hmp
      obtain ⟨ps, blocks, hcol, hfa, hiff, hsp⟩ :=
        ih pending1 textAcc modif lastOff logs r h
      refine ⟨ps, blocks, ?_, hfa, hiff, hsp⟩
      rw [collectPairs_cons_skip pending pending1 item rest hmp]
      exact hcol
    · rename_i p1 s e hmp
      have hp1 : p1 = Option.none := makePair_pair_none pending item p1 (s, e) hmp
      subst hp1
      split at h
      · cases h
      · rename_i rel src hinc
        split at h
        · cases h
        · cases h
        · rename_i trimmed htr
          split at h
          · rename_i him
            split at h
            · cases h
            · rename_i hfmb
              obtain ⟨ps2, blocks2, hcol2, hfa2, hiff2, hsp2⟩ :=
                ih Option.none
                  (textAcc ++ byteSlice input lastOff s.rangeEnd ++ ['\n'] ++
                    toDocComment trimmed s.kind.docPfx)
                  true e.rangeStart (logs ++ [(rel, true)]) r h
              refine ⟨(s, e) :: ps2, toDocComment trimmed s.kind.docPfx :: blocks2,
                ?_, ?_, ?_, ?_⟩
              · exact collectPairs_cons_pair pending Option.none item rest s e ps2 hmp hcol2
              · exact List.Forall₂.cons ⟨rel, src, trimmed, hinc, htr, rfl⟩ hfa2
              · have hnu : ¬ pairUnchanged input s e (toDocComment trimmed s.kind.docPfx) := by
                  intro hc
                  have hfalse := (isModified_false_iff _ input s e).mpr hc
                  rw [him] at hfalse
                  cases hfalse
                constructor
                · intro hnone
                  rcases hiff2.mp hnone with ⟨h3, _⟩
                  cases h3
                · rintro ⟨_, hall⟩
                  exact absurd (hall ((s, e), toDocComment trimmed s.kind.docPfx)
                    (by rw [List.zip_cons_cons]; simp)) hnu
              · intro t2 ht
                have hx := hsp2 t2 ht
                rw [hx, List.zip_cons_cons, spliceFrom]
                simp [List.append_assoc]
          · rename_i him
            obtain ⟨ps2, blocks2, hcol2, hfa2, hiff2, hsp2⟩ :=
              ih Option.none
                (textAcc ++ byteSlice input lastOff s.rangeEnd ++ ['\n'] ++
                  toDocComment trimmed s.kind.docPfx)
                modif e.rangeStart (logs ++ [(rel, false)]) r h
            refine ⟨(s, e) :: ps2, toDocComment trimmed s.kind.docPfx :: blocks2,
              ?_, ?_, ?_, ?_⟩
            · exact collectPairs_cons_pair pending Option.none item rest s e ps2 hmp hcol2
            · exact List.Forall₂.cons ⟨rel, src, trimmed, hinc, htr, rfl⟩ hfa2
            · have hunch : pairUnchanged input s e (toDocComment trimmed s.kind.docPfx) :=
                (isModified_false_iff _ input s e).mp (by
                  rcases hb : isModified (toDocComment trimmed s.kind.docPfx) input s e
                  · rfl
                  · exact absurd hb him)
              rw [hiff2]
              constructor
              · rintro ⟨hm, hall⟩
                refine ⟨hm, ?_⟩
                intro pb hpb
                rw [List.zip_cons_cons, List.mem_cons] at hpb
                rcases hpb with hpb | hpb
                · subst hpb
                  exact hunch
                · exact hall pb hpb
              · rintro ⟨hm, hall⟩
                refine ⟨hm, ?_⟩
                intro pb hpb
                exact hall pb (by rw [List.zip_cons_cons, List.mem_cons]; right; exact hpb)
            · intro t2 ht
              have hx := hsp2 t2 ht
              rw [hx, List.zip_cons_cons, spliceFrom]
              simp [List.append_assoc]

/-- C9: when `apply` succeeds, the pairing pass succeeds, each pair renders
its included range as the prefixed newline-terminated block, the result is
`Unchanged` exactly when every pair's rendered content equals what already
lay between its markers, and a `Modified` result is the document-order
concatenation of the untouched input up to and including each start marker,
a newline, the rendered block, continuing from the end marker, with the text
after the last pair copied verbatim. -/
theorem c9_splice_and_outcome (inc : Inc) (input : List Char) (r : ApplyResult)
    (h : apply inc input = .ok r) :
    ∃ ps blocks, collectPairs Option.none (findIter input) = .ok ps ∧
      List.Forall₂ (RenderedAs inc) ps blocks ∧
      (r.text = Option.none ↔
        ∀ pb ∈ ps.zip blocks, pairUnchanged input pb.1.1 pb.1.2 pb.2) ∧
      (∀ t2, r.text = some t2 → t2 = spliceFrom input 0 (ps.zip blocks)) := by
  obtain ⟨ps, blocks, h1, h2, h3, h4⟩ :=
    applyGo_spec inc input (findIter input) Option.none [] false 0 [] r h
  refine ⟨ps, blocks, h1, h2, ?_, ?_⟩
  · rw [h3]
    simp
  · intro t2 ht
    have := h4 t2 ht
    simpa using this

/-- Witness for C9 at the scenario of §8. -/
theorem c9_splice_and_outcome_wit :
    ∃ ps blocks, collectPairs Option.none (findIter inputScenario) = .ok ps ∧
      List.Forall₂ (RenderedAs incLib) ps blocks ∧
      ((⟨some outputScenario, [("lib.txt".toList, true)]⟩ : ApplyResult).text = Option.none ↔
        ∀ pb ∈ ps.zip blocks, pairUnchanged inputScenario pb.1.1 pb.1.2 pb.2) ∧
      (∀ t2, (⟨some outputScenario, [("lib.txt".toList, true)]⟩ : ApplyResult).text = some t2 →
        t2 = spliceFrom inputScenario 0 (ps.zip blocks)) :=
  c9_splice_and_outcome incLib inputScenario
    ⟨some outputScenario, [("lib.txt".toList, true)]⟩ (by decide)

/-! ### Idempotence (C4): relating `apply` to the line-level model -/

theorem nl_utf8Size : ('\n').utf8Size = 1 := rfl

theorem utf8Len_joinTrail_append (x : List (List Char)) (l : List Char) :
    utf8Len (joinTrail (x ++ [l])) = utf8Len (joinTrail x) + utf8Len l + 1 := by
  rw [joinTrail_append, utf8Len_append]
  have h1 : utf8Len (joinTrail [l]) = utf8Len l + 1 := by
    show utf8Len (l ++ '\n' :: joinTrail []) = _
    rw [utf8Len_append]
    simp [joinTrail, utf8Len, nl_utf8Size]
  omega

theorem mismatch_none_iff (a b : Attr) :
    a.mismatch b = Option.none ↔ (a.kind = b.kind ∧ a.path = b.path) := by
  unfold Attr.mismatch
  by_cases h1 : a.kind = b.kind <;> by_cases h2 : a.path = b.path <;> simp [h1, h2]

theorem resolveLowerN_eq (text : List Char) (a : Attr) :
    resolveLowerN text a.arg =
      match resolveLower text a with
      | .ok i => some i
      | .error _ => Option.none := by
  unfold resolveLower resolveLowerN
  rcases a.arg with _ | n | n | p
  · rfl
  · rfl
  · rfl
  · rcases hf : strFind text p with _ | i <;> simp [hf]

theorem resolveUpperN_eq (text : List Char) (a : Attr) :
    resolveUpperN text a.arg =
      match resolveUpper text a with
      | .ok i => some i
      | .error _ => Option.none := by
  unfold resolveUpper resolveUpperN
  rcases a.arg with _ | n | n | p
  · rfl
  · rfl
  · rfl
  · rcases hf : strRFind text p with _ | i <;> simp [hf]

theorem trim_toOpt (text : List Char) (s e : Attr) :
    (trim text s e).toOpt = trimArgs text s.arg e.arg := by
  unfold trim trimArgs
  rw [resolveLowerN_eq text s, resolveUpperN_eq text e]
  rcases hl : resolveLower text s with er | i0
  · rfl
  · rcases hu : resolveUpper text e with er | j0
    · rfl
    · dsimp only
      by_cases hc : i0 ≤ j0 ∧ j0 ≤ utf8Len text
      · rw [if_pos hc, if_pos hc]
        rfl
      · rw [if_neg hc, if_neg hc]
        rfl

theorem nlfree_append_cons_inj (a b : List Char) :
    ∀ (x y : List Char), '\n' ∉ x → '\n' ∉ y →
      x ++ '\n' :: a = y ++ '\n' :: b → x = y ∧ a = b := by
  intro x
  induction x with
  | nil =>
    intro y hx hy h
    cases y with
    | nil =>
      simp at h
      exact ⟨rfl, h⟩
    | cons c ys =>
      exfalso
      have hc : '\n' = c := by
        have := congrArg (fun l => l.head?) h
        simpa using this
      exact hy (by rw [← hc]; exact List.mem_cons_self _ _)
  | cons c xs ih =>
    intro y hx hy h
    cases y with
    | nil =>
      exfalso
      have hc : c = '\n' := by
        have := congrArg (fun l => l.head?) h
        simpa using this
      exact hx (by rw [hc] at *; exact List.mem_cons_self _ _)
    | cons d ys =>
      have hcd : c = d := by
        have := congrArg (fun l => l.head?) h
        simpa using this
      subst hcd
      have htl : xs ++ '\n' :: a = ys ++ '\n' :: b := by
        have := congrArg (fun l => l.tail) h
        simpa using this
      obtain ⟨h1, h2⟩ := ih ys (fun hc => hx (List.mem_cons_of_mem _ hc))
        (fun hc => hy (List.mem_cons_of_mem _ hc)) htl
      exact ⟨by rw [h1], h2⟩

theorem joinTrail_inj_aux :
    ∀ (x y : List (List Char)), (∀ l ∈ x, '\n' ∉ l) → (∀ l ∈ y, '\n' ∉ l) →
      joinTrail x = joinTrail y → x = y := by
  intro x
  induction x with
  | nil =>
    intro y hx hy h
    cases y with
    | nil => rfl
    | cons d ys => exact absurd h.symm (joinTrail_ne_nil d ys)
  | cons c xs ih =>
    intro y hx hy h
    cases y with
    | nil => exact absurd h (joinTrail_ne_nil c xs)
    | cons d ys =>
      rw [joinTrail, joinTrail] at h
      obtain ⟨h1, h2⟩ := nlfree_append_cons_inj (joinTrail xs) (joinTrail ys) c d
        (hx c (by simp)) (hy d (by simp)) h
      rw [h1, ih ys (fun l hl => hx l (by simp [hl])) (fun l hl => hy l (by simp [hl])) h2]

theorem joinTrail_inj (x y : List (List Char))
    (hx : ∀ l ∈ x, '\n' ∉ l) (hy : ∀ l ∈ y, '\n' ∉ l) :
    joinTrail x = joinTrail y ↔ x = y := by
  constructor
  · exact joinTrail_inj_aux x y hx hy
  · intro h
    rw [h]

theorem runLines_cons (inc : Inc) (l : List Char) (ls : List (List Char)) (m : LMode) :
    runLines inc (l :: ls) m =
      match stepLine inc m l with
      | Option.none => Option.none
      | some (m1, e1, g1, b1) =>
        match runLines inc ls m1 with
        | Option.none => Option.none
        | some (m2, e2, g2, b2) => some (m2, e1 ++ e2, g1 ++ g2, b1 || b2) := rfl

theorem runLines_cons_none (inc : Inc) (l : List Char) (ls : List (List Char))
    (m : LMode) (hstep : stepLine inc m l = Option.none) :
    runLines inc (l :: ls) m = Option.none := by
  rw [runLines_cons, hstep]

theorem runLines_cons_some_iff (inc : Inc) (l : List Char) (ls : List (List Char))
    (m m1 : LMode) (e1 : List (List Char)) (g1 : List (List Char × Bool)) (b1 : Bool)
    (hstep : stepLine inc m l = some (m1, e1, g1, b1)) :
    ∀ mF e g b, runLines inc (l :: ls) m = some (mF, e, g, b) ↔
      ∃ e2 g2 b2, runLines inc ls m1 = some (mF, e2, g2, b2) ∧
        e = e1 ++ e2 ∧ g = g1 ++ g2 ∧ b = (b1 || b2) := by
  intro mF e g b
  rcases hrl : runLines inc ls m1 with _ | ⟨m2, e2, g2, b2⟩
  · rw [runLines_cons, hstep]
    dsimp only
    rw [hrl]
    simp
  · rw [runLines_cons, hstep]
    dsimp only
    rw [hrl]
    show some (m2, e1 ++ e2, g1 ++ g2, b1 || b2) = some (mF, e, g, b) ↔ _
    constructor
    · intro hx
      simp only [Option.some.injEq, Prod.mk.injEq] at hx
      obtain ⟨hm, he, hg, hb⟩ := hx
      subst hm
      exact ⟨e2, g2, b2, rfl, he.symm, hg.symm, hb.symm⟩
    · rintro ⟨e2', g2', b2', hrl2, rfl, rfl, rfl⟩
      simp only [Option.some.injEq, Prod.mk.injEq] at hrl2
      obtain ⟨hm, he, hg, hb⟩ := hrl2
      subst hm
      subst he
      subst hg
      subst hb
      rfl

theorem streamFrom_cons_plain (off : Nat) (l : List Char) (ls : List (List Char))
    (hpl : parseLine l = Option.none) :
    streamFrom off (l :: ls) = streamFrom (off + utf8Len l + 1) ls := by
  rw [streamFrom, itemOfLine, hpl]

theorem streamFrom_cons_bad (off : Nat) (l : List Char) (ls : List (List Char))
    (hpl : parseLine l = some Option.none) :
    streamFrom off (l :: ls) =
      .error ⟨off, off + utf8Len l⟩ :: streamFrom (off + utf8Len l + 1) ls := by
  rw [streamFrom, itemOfLine, hpl]

theorem streamFrom_cons_attr (off : Nat) (l : List Char) (ls : List (List Char))
    (c : Core) (hpl : parseLine l = some (some c)) :
    streamFrom off (l :: ls) =
      .ok ⟨off, off + utf8Len l, c.path, c.kind, c.action, c.arg⟩ ::
        streamFrom (off + utf8Len l + 1) ls := by
  rw [streamFrom, itemOfLine, hpl]

theorem stepLine_plain_idle (inc : Inc) (l : List Char)
    (hpl : parseLine l = Option.none) :
    stepLine inc .idle l = some (.idle, [l], [], false) := by
  unfold stepLine
  rw [hpl]

theorem stepLine_plain_pend (inc : Inc) (l sl : List Char) (sc : Core)
    (bt : List (List Char)) (hpl : parseLine l = Option.none) :
    stepLine inc (.pend sl sc bt) l = some (.pend sl sc (bt ++ [l]), [], [], false) := by
  unfold stepLine
  rw [hpl]

theorem stepLine_bad (inc : Inc) (l : List Char) (m : LMode)
    (hpl : parseLine l = some Option.none) :
    stepLine inc m l = Option.none := by
  unfold stepLine
  rw [hpl]

theorem stepLine_start_idle (inc : Inc) (l : List Char) (c : Core)
    (hpl : parseLine l = some (some c)) (hact : c.action = Action.start) :
    stepLine inc .idle l = some (.pend l c [], [], [], false) := by
  unfold stepLine
  rw [hpl]
  dsimp only
  rw [hact]

theorem stepLine_start_pend (inc : Inc) (l sl : List Char) (sc c : Core)
    (bt : List (List Char)) (hpl : parseLine l = some (some c))
    (hact : c.action = Action.start) :
    stepLine inc (.pend sl sc bt) l = Option.none := by
  unfold stepLine
  rw [hpl]
  dsimp only
  rw [hact]

theorem stepLine_end_idle (inc : Inc) (l : List Char) (c : Core)
    (hpl : parseLine l = some (some c)) (hact : c.action = Action.end_) :
    stepLine inc .idle l = Option.none := by
  unfold stepLine
  rw [hpl]
  dsimp only
  rw [hact]

theorem stepLine_end_pend_nomatch (inc : Inc) (l sl : List Char) (sc c : Core)
    (bt : List (List Char)) (hpl : parseLine l = some (some c))
    (hact : c.action = Action.end_)
    (hcond : ¬(sc.kind = c.kind ∧ sc.path = c.path)) :
    stepLine inc (.pend sl sc bt) l = Option.none := by
  unfold stepLine
  rw [hpl]
  dsimp only
  rw [hact]
  dsimp only
  rw [if_neg hcond]

theorem stepLine_end_pend_incfail (inc : Inc) (l sl : List Char) (sc c : Core)
    (bt : List (List Char)) (reason : List Char) (hpl : parseLine l = some (some c))
    (hact : c.action = Action.end_)
    (hcond : sc.kind = c.kind ∧ sc.path = c.path)
    (hincE : inc sc.path = .error reason) :
    stepLine inc (.pend sl sc bt) l = Option.none := by
  unfold stepLine
  rw [hpl]
  dsimp only
  rw [hact]
  dsimp only
  rw [if_pos hcond, hincE]

theorem stepLine_end_pend_trimfail (inc : Inc) (l sl : List Char) (sc c : Core)
    (bt : List (List Char)) (rel src : List Char) (hpl : parseLine l = some (some c))
    (hact : c.action = Action.end_)
    (hcond : sc.kind = c.kind ∧ sc.path = c.path)
    (hincE : inc sc.path = .ok (rel, src))
    (htf : trimArgs src sc.arg c.arg = Option.none) :
    stepLine inc (.pend sl sc bt) l = Option.none := by
  unfold stepLine
  rw [hpl]
  dsimp only
  rw [hact]
  dsimp only
  rw [if_pos hcond, hincE]
  dsimp only
  rw [htf]

theorem stepLine_end_pend_ok (inc : Inc) (l sl : List Char) (sc c : Core)
    (bt : List (List Char)) (rel src trimmed : List Char)
    (hpl : parseLine l = some (some c))
    (hact : c.action = Action.end_)
    (hcond : sc.kind = c.kind ∧ sc.path = c.path)
    (hincE : inc sc.path = .ok (rel, src))
    (htf : trimArgs src sc.arg c.arg = some trimmed)
    (hguard : ¬(decide (bt ≠ blockLines trimmed sc.kind) = true ∧
      (findMayBad (joinTrail (blockLines trimmed sc.kind))).isSome = true)) :
    stepLine inc (.pend sl sc bt) l =
      some (.idle, sl :: (blockLines trimmed sc.kind ++ [l]),
        [(rel, decide (bt ≠ blockLines trimmed sc.kind))],
        decide (bt ≠ blockLines trimmed sc.kind)) := by
  unfold stepLine
  rw [hpl]
  dsimp only
  rw [hact]
  dsimp only
  rw [if_pos hcond, hincE]
  dsimp only
  rw [htf]
  dsimp only
  rw [if_neg hguard]

theorem stepLine_end_pend_guard (inc : Inc) (l sl : List Char) (sc c : Core)
    (bt : List (List Char)) (rel src trimmed : List Char)
    (hpl : parseLine l = some (some c))
    (hact : c.action = Action.end_)
    (hcond : sc.kind = c.kind ∧ sc.path = c.path)
    (hincE : inc sc.path = .ok (rel, src))
    (htf : trimArgs src sc.arg c.arg = some trimmed)
    (hguard : decide (bt ≠ blockLines trimmed sc.kind) = true ∧
      (findMayBad (joinTrail (blockLines trimmed sc.kind))).isSome = true) :
    stepLine inc (.pend sl sc bt) l = Option.none := by
  unfold stepLine
  rw [hpl]
  dsimp only
  rw [hact]
  dsimp only
  rw [if_pos hcond, hincE]
  dsimp only
  rw [htf]
  dsimp only
  rw [if_pos hguard]

theorem makePair_start_none (a : Attr) (hact : a.action = Action.start) :
    makePair Option.none (.ok a) = .ok (some a, Option.none) := by
  unfold makePair
  dsimp only
  rw [hact]

theorem makePair_start_pend (a S : Attr) (hact : a.action = Action.start) :
    makePair (some S) (.ok a) = .error (.missingAttr S) := by
  unfold makePair
  dsimp only
  rw [hact]

theorem makePair_end_none (a : Attr) (hact : a.action = Action.end_) :
    makePair Option.none (.ok a) = .error (.missingAttr a) := by
  unfold makePair
  dsimp only
  rw [hact]

theorem makePair_end_mismatch (a S : Attr) (m0 : Mismatch)
    (hact : a.action = Action.end_) (hmm : S.mismatch a = some m0) :
    makePair (some S) (.ok a) = .error (.mismatchAttr S a m0) := by
  unfold makePair
  dsimp only
  rw [hact]
  dsimp only
  rw [hmm]

theorem makePair_end_match (a S : Attr)
    (hact : a.action = Action.end_) (hmm : S.mismatch a = Option.none) :
    makePair (some S) (.ok a) = .ok (Option.none, some (S, a)) := by
  unfold makePair
  dsimp only
  rw [hact]
  dsimp only
  rw [hmm]

theorem applyGo_cons (inc : Inc) (input : List Char) (item : Except BadAttr Attr)
    (rest : List (Except BadAttr Attr)) (pending : Option Attr) (text : List Char)
    (modif : Bool) (lastOff : Nat) (logs : List (List Char × Bool)) :
    applyGo inc input (item :: rest) pending text modif lastOff logs =
      match makePair pending item with
      | .error e => .err e
      | .ok (pending1, Option.none) => applyGo inc input rest pending1 text modif lastOff logs
      | .ok (_, some (s, e)) =>
        match inc s.path with
        | .error reason => .err (.sourceRead s reason)
        | .ok (relPath, src) =>
          match trim src s e with
          | .panics => .panics
          | .err er => .err er
          | .ok trimmed =>
            if isModified (toDocComment trimmed s.kind.docPfx) input s e then
              match findMayBad (toDocComment trimmed s.kind.docPfx) with
              | some (a, b) =>
                .err (.sourceContent s relPath (toDocComment trimmed s.kind.docPfx)
                  a b pollutionReason)
              | Option.none =>
                applyGo inc input rest Option.none
                  (text ++ byteSlice input lastOff s.rangeEnd ++ ['\n'] ++
                    toDocComment trimmed s.kind.docPfx)
                  true e.rangeStart (logs ++ [(relPath, true)])
            else
              applyGo inc input rest Option.none
                (text ++ byteSlice input lastOff s.rangeEnd ++ ['\n'] ++
                  toDocComment trimmed s.kind.docPfx)
                modif e.rangeStart (logs ++ [(relPath, false)]) := rfl

/-- Splitting `joinNl` around a distinguished middle line. -/
theorem joinNl_mid (W : List (List Char)) (sl : List Char) (X : List (List Char))
    (hX : X ≠ []) :
    joinNl (W ++ sl :: X) = (joinTrail W ++ sl) ++ '\n' :: joinNl X := by
  rw [joinNl_append_of_ne_nil W (sl :: X) (by simp), joinNl_cons_of_ne_nil sl X hX,
    List.append_assoc]

theorem byteTake_cons_pos (c : Char) (s : List Char) (n : Nat) (h : ¬n = 0) :
    byteTake (c :: s) n = c :: byteTake s (n - c.utf8Size) := by
  rw [byteTake, if_neg h]

theorem utf8Len_cons (c : Char) (s : List Char) :
    utf8Len (c :: s) = c.utf8Size + utf8Len s := rfl

theorem joinTrail_singleton (l : List Char) : joinTrail [l] = l ++ ['\n'] := rfl

theorem utf8Len_joinTrail_single (l : List Char) :
    utf8Len (joinTrail [l]) = utf8Len l + 1 := by
  rw [joinTrail_singleton, utf8Len_append]
  simp [utf8Len, nl_utf8Size]

theorem utf8Len_joinTrail_mid (W : List (List Char)) (sl : List Char)
    (bt : List (List Char)) :
    utf8Len (joinTrail (W ++ sl :: bt)) =
      utf8Len (joinTrail W) + utf8Len sl + 1 + utf8Len (joinTrail bt) := by
  rw [joinTrail_append, utf8Len_append,
    show joinTrail (sl :: bt) = sl ++ '\n' :: joinTrail bt from rfl, utf8Len_append,
    utf8Len_cons, nl_utf8Size]
  omega

/-- The heart of the idempotence argument: `applyGo` over the parse stream of
the remaining lines succeeds exactly when the line-level engine does, and the
result is the join of the already-emitted lines, the lines the engine emits,
and the lines still buffered in the final mode. -/
theorem applyGo_runLines (inc : Inc) (input : List Char) :
    ∀ (ls : List (List Char)) (PRE : List Char) (Wemit E : List (List Char))
      (pending : Option Attr) (m : LMode) (textAcc : List Char) (modif : Bool)
      (logs : List (List Char × Bool)),
      input = PRE ++ joinNl ((Wemit ++ flushMode m) ++ ls) →
      joinTrail E = textAcc ++ joinTrail Wemit →
      ModeRel (utf8Len PRE) Wemit pending m →
      (∀ x ∈ (Wemit ++ flushMode m) ++ ls, '\n' ∉ x) →
      (Wemit ++ flushMode m = [] → E = [] ∧ ls ≠ []) →
      ∀ r, (applyGo inc input
          (streamFrom (utf8Len PRE + utf8Len (joinTrail (Wemit ++ flushMode m))) ls)
          pending textAcc modif (utf8Len PRE) logs = .ok r ↔
        ∃ mF e g b, runLines inc ls m = some (mF, e, g, b) ∧
          r = ⟨if (modif || b) then some (joinNl (E ++ e ++ flushMode mF))
               else Option.none, logs ++ g⟩) := by
  intro ls
  induction ls with
  | nil =>
    intro PRE Wemit E pending m textAcc modif logs hinput hjt hrel hnl hedge r
    have hdrop : byteDrop input (utf8Len PRE) = joinNl (Wemit ++ flushMode m) := by
      rw [hinput, byteDrop_len, List.append_nil]
    have htext : textAcc ++ byteDrop input (utf8Len PRE) = joinNl (E ++ flushMode m) := by
      rw [hdrop]
      rcases hF : flushMode m with _ | ⟨f, fs⟩
      · rcases hW : Wemit with _ | ⟨w, ws⟩
        · exfalso
          apply (hedge (by rw [hW, hF]; rfl)).2
          rfl
        · subst hW
          have hEne : E ≠ [] := by
            intro hc
            rw [hc] at hjt
            exact joinTrail_ne_nil w ws (List.append_eq_nil.mp hjt.symm).2
          rw [joinTrail_eq_joinNl_append E hEne,
            joinTrail_eq_joinNl_append (w :: ws) (by simp), ← List.append_assoc] at hjt
          have h2 : joinNl E = textAcc ++ joinNl (w :: ws) := by
            have h3 := hjt
            rwa [List.append_left_inj] at h3
          rw [List.append_nil, List.append_nil, h2]
      · rw [joinNl_append_of_ne_nil Wemit (f :: fs) (by simp),
          joinNl_append_of_ne_nil E (f :: fs) (by simp), ← List.append_assoc, ← hjt]
    have hfin : (⟨if modif then some (textAcc ++ byteDrop input (utf8Len PRE))
        else Option.none, logs⟩ : ApplyResult) =
        ⟨if (modif || false) then some (joinNl (E ++ [] ++ flushMode m))
         else Option.none, logs ++ []⟩ := by
      rw [Bool.or_false, List.append_nil, List.append_nil]
      cases modif
      · rfl
      · rw [htext]
    constructor
    · intro h
      have h2 : Out.ok (⟨if modif then some (textAcc ++ byteDrop input (utf8Len PRE))
          else Option.none, logs⟩ : ApplyResult) = .ok r := h
      injection h2 with h2
      refine ⟨m, [], [], false, rfl, ?_⟩
      rw [← h2]
      exact hfin
    · rintro ⟨mF, e, g, b, hrl, rfl⟩
      have hrl2 : (some (m, ([] : List (List Char)), ([] : List (List Char × Bool)), false) :
          Option (LMode × List (List Char) × List (List Char × Bool) × Bool)) =
            some (mF, e, g, b) := hrl
      injection hrl2 with hrl2
      injection hrl2 with h1 h234
      injection h234 with h2 h34
      injection h34 with h3 h4
      subst h1
      subst h2
      subst h3
      subst h4
      exact congrArg Out.ok hfin
  | cons l rest ih =>
    intro PRE Wemit E pending m textAcc modif logs hinput hjt hrel hnl hedge r
    rcases hpl : parseLine l with _ | (_ | c)
    · -- the line is no directive at all: it is copied (as part of a later
      -- splice or of the final tail) and the engine just advances
      rcases m with _ | ⟨sl, sc, bt⟩
      · rcases pending with _ | S
        · simp only [flushMode, List.append_nil] at hinput hnl ⊢
          rw [streamFrom_cons_plain _ _ _ hpl]
          have hoff : utf8Len PRE + utf8Len (joinTrail Wemit) + utf8Len l + 1 =
              utf8Len PRE + utf8Len (joinTrail (Wemit ++ [l])) := by
            rw [utf8Len_joinTrail_append]
            omega
          rw [hoff]
          have hin2 : input = PRE ++ joinNl (((Wemit ++ [l]) ++ flushMode .idle) ++ rest) := by
            rw [hinput]
            simp [flushMode]
          have hjt2 : joinTrail (E ++ [l]) = textAcc ++ joinTrail (Wemit ++ [l]) := by
            rw [joinTrail_append, joinTrail_append, hjt, List.append_assoc]
          have hnl2 : ∀ x ∈ ((Wemit ++ [l]) ++ flushMode .idle) ++ rest, '\n' ∉ x := by
            intro x hx
            apply hnl x
            simp only [flushMode, List.append_nil] at hx
            simp at hx ⊢
            tauto
          have hedge2 : (Wemit ++ [l]) ++ flushMode .idle = [] →
              E ++ [l] = [] ∧ rest ≠ [] := by
            intro hc
            simp [flushMode] at hc
          have ihh := ih PRE (Wemit ++ [l]) (E ++ [l]) Option.none .idle textAcc modif
            logs hin2 hjt2 trivial hnl2 hedge2 r
          simp only [flushMode, List.append_nil] at ihh
          rw [ihh]
          have hstep := stepLine_plain_idle inc l hpl
          constructor
          · rintro ⟨mF, e2, g2, b2, hrl, rfl⟩
            exact ⟨mF, [l] ++ e2, [] ++ g2, false || b2,
              (runLines_cons_some_iff inc l rest .idle .idle [l] [] false hstep mF
                ([l] ++ e2) ([] ++ g2) (false || b2)).mpr ⟨e2, g2, b2, hrl, rfl, rfl, rfl⟩,
              by simp [List.append_assoc]⟩
          · rintro ⟨mF, e, g, b, hrl, rfl⟩
            rcases (runLines_cons_some_iff inc l rest .idle .idle [l] [] false hstep
              mF e g b).mp hrl with ⟨e2, g2, b2, hrl2, rfl, rfl, rfl⟩
            exact ⟨mF, _, _, _, hrl2, by simp [List.append_assoc]⟩
        · exact False.elim hrel
      · rcases pending with _ | S
        · exact False.elim hrel
        · simp only [flushMode, List.append_nil] at hinput hnl ⊢
          rw [streamFrom_cons_plain _ _ _ hpl]
          have hoff : utf8Len PRE + utf8Len (joinTrail (Wemit ++ sl :: bt)) + utf8Len l + 1 =
              utf8Len PRE + utf8Len (joinTrail (Wemit ++ sl :: (bt ++ [l]))) := by
            have h1 : Wemit ++ sl :: (bt ++ [l]) = (Wemit ++ sl :: bt) ++ [l] := by simp
            rw [h1, utf8Len_joinTrail_append]
            omega
          rw [hoff]
          have hin2 : input =
              PRE ++ joinNl ((Wemit ++ flushMode (.pend sl sc (bt ++ [l]))) ++ rest) := by
            rw [hinput]
            simp [flushMode]
          have hnl2 : ∀ x ∈ (Wemit ++ flushMode (.pend sl sc (bt ++ [l]))) ++ rest,
              '\n' ∉ x := by
            intro x hx
            apply hnl x
            simp only [flushMode] at hx
            simp at hx ⊢
            tauto
          have hedge2 : Wemit ++ flushMode (.pend sl sc (bt ++ [l])) = [] →
              E = [] ∧ rest ≠ [] := by
            intro hc
            simp [flushMode] at hc
          have ihh := ih PRE Wemit E (some S) (.pend sl sc (bt ++ [l])) textAcc modif
            logs hin2 hjt hrel hnl2 hedge2 r
          simp only [flushMode, List.append_nil] at ihh
          rw [ihh]
          have hstep := stepLine_plain_pend inc l sl sc bt hpl
          constructor
          · rintro ⟨mF, e2, g2, b2, hrl, rfl⟩
            exact ⟨mF, [] ++ e2, [] ++ g2, false || b2,
              (runLines_cons_some_iff inc l rest (.pend sl sc bt) (.pend sl sc (bt ++ [l]))
                [] [] false hstep mF ([] ++ e2) ([] ++ g2) (false || b2)).mpr
                ⟨e2, g2, b2, hrl, rfl, rfl, rfl⟩,
              by simp [List.append_assoc]⟩
          · rintro ⟨mF, e, g, b, hrl, rfl⟩
            rcases (runLines_cons_some_iff inc l rest (.pend sl sc bt)
              (.pend sl sc (bt ++ [l])) [] [] false hstep mF e g b).mp hrl with
              ⟨e2, g2, b2, hrl2, rfl, rfl, rfl⟩
            exact ⟨mF, _, _, _, hrl2, by simp [List.append_assoc]⟩
    · -- a malformed directive line: both engines abort
      rw [streamFrom_cons_bad _ _ _ hpl]
      constructor
      · intro h
        have h2 : Out.err (α := ApplyResult)
            (.badAttr ⟨utf8Len PRE + utf8Len (joinTrail (Wemit ++ flushMode m)),
              utf8Len PRE + utf8Len (joinTrail (Wemit ++ flushMode m)) + utf8Len l⟩) =
              .ok r := h
        exact Out.noConfusion h2
      · rintro ⟨mF, e, g, b, hrl, -⟩
        rw [runLines_cons_none inc l rest m (stepLine_bad inc l m hpl)] at hrl
        exact Option.noConfusion hrl
    · -- a well-formed directive line
      rcases m with _ | ⟨sl, sc, bt⟩
      · rcases pending with _ | S
        · simp only [flushMode, List.append_nil] at hinput hnl ⊢
          rw [streamFrom_cons_attr _ _ _ c hpl]
          generalize hA : (⟨utf8Len PRE + utf8Len (joinTrail Wemit),
            utf8Len PRE + utf8Len (joinTrail Wemit) + utf8Len l, c.path, c.kind,
            c.action, c.arg⟩ : Attr) = A
          have hAact : A.action = c.action := by rw [← hA]
          have hAkind : A.kind = c.kind := by rw [← hA]
          have hApath : A.path = c.path := by rw [← hA]
          have hAarg : A.arg = c.arg := by rw [← hA]
          have hAend : A.rangeEnd = utf8Len PRE + utf8Len (joinTrail Wemit) + utf8Len l := by
            rw [← hA]
          rcases hact : c.action with _ | _
          · -- a fresh start directive becomes the pending one
            have hmp := makePair_start_none A (hAact.trans hact)
            rw [applyGo_cons, hmp]
            dsimp only
            have hoff : utf8Len PRE + utf8Len (joinTrail Wemit) + utf8Len l + 1 =
                utf8Len PRE + utf8Len (joinTrail (Wemit ++ [l])) := by
              rw [utf8Len_joinTrail_append]
              omega
            rw [hoff]
            have hin2 : input =
                PRE ++ joinNl ((Wemit ++ flushMode (.pend l c [])) ++ rest) := by
              rw [hinput]
              simp [flushMode]
            have hrel2 : ModeRel (utf8Len PRE) Wemit (some A) (.pend l c []) :=
              ⟨hAkind, hApath, hAarg, by rw [hAend, utf8Len_joinTrail_append]; omega⟩
            have hnl2 : ∀ x ∈ (Wemit ++ flushMode (.pend l c [])) ++ rest, '\n' ∉ x := by
              intro x hx
              apply hnl x
              simp only [flushMode] at hx
              simp at hx ⊢
              tauto
            have hedge2 : Wemit ++ flushMode (.pend l c []) = [] →
                E = [] ∧ rest ≠ [] := by
              intro hc
              simp [flushMode] at hc
            have ihh := ih PRE Wemit E (some A) (.pend l c []) textAcc modif logs
              hin2 hjt hrel2 hnl2 hedge2 r
            simp only [flushMode, List.append_nil] at ihh
            rw [ihh]
            have hstep := stepLine_start_idle inc l c hpl hact
            constructor
            · rintro ⟨mF, e2, g2, b2, hrl, rfl⟩
              exact ⟨mF, [] ++ e2, [] ++ g2, false || b2,
                (runLines_cons_some_iff inc l rest .idle (.pend l c []) [] [] false hstep
                  mF ([] ++ e2) ([] ++ g2) (false || b2)).mpr ⟨e2, g2, b2, hrl, rfl, rfl, rfl⟩,
                by simp [List.append_assoc]⟩
            · rintro ⟨mF, e, g, b, hrl, rfl⟩
              rcases (runLines_cons_some_iff inc l rest .idle (.pend l c []) [] [] false
                hstep mF e g b).mp hrl with ⟨e2, g2, b2, hrl2, rfl, rfl, rfl⟩
              exact ⟨mF, _, _, _, hrl2, by simp [List.append_assoc]⟩
          · -- an end with nothing pending: both engines abort
            have hmp := makePair_end_none A (hAact.trans hact)
            rw [applyGo_cons, hmp]
            dsimp only
            constructor
            · intro h
              exact Out.noConfusion h
            · rintro ⟨mF, e, g, b, hrl, -⟩
              rw [runLines_cons_none inc l rest _ (stepLine_end_idle inc l c hpl hact)] at hrl
              exact Option.noConfusion hrl
        · exact False.elim hrel
      · rcases pending with _ | S
        · exact False.elim hrel
        · have hrelc : S.kind = sc.kind ∧ S.path = sc.path ∧ S.arg = sc.arg ∧
              S.rangeEnd + 1 = utf8Len PRE + utf8Len (joinTrail (Wemit ++ [sl])) := hrel
          obtain ⟨hk, hp, harg, hre⟩ := hrelc
          simp only [flushMode, List.append_nil] at hinput hnl ⊢
          rw [streamFrom_cons_attr _ _ _ c hpl]
          generalize hA : (⟨utf8Len PRE + utf8Len (joinTrail (Wemit ++ sl :: bt)),
            utf8Len PRE + utf8Len (joinTrail (Wemit ++ sl :: bt)) + utf8Len l, c.path,
            c.kind, c.action, c.arg⟩ : Attr) = A
          have hAact : A.action = c.action := by rw [← hA]
          have hAkind : A.kind = c.kind := by rw [← hA]
          have hApath : A.path = c.path := by rw [← hA]
          have hAarg : A.arg = c.arg := by rw [← hA]
          have hAstart : A.rangeStart =
              utf8Len PRE + utf8Len (joinTrail (Wemit ++ sl :: bt)) := by
            rw [← hA]
          rcases hact : c.action with _ | _
          · -- a second start while one is pending: both engines abort
            have hmp := makePair_start_pend A S (hAact.trans hact)
            rw [applyGo_cons, hmp]
            dsimp only
            constructor
            · intro h
              exact Out.noConfusion h
            · rintro ⟨mF, e, g, b, hrl, -⟩
              rw [runLines_cons_none inc l rest _
                (stepLine_start_pend inc l sl sc c bt hpl hact)] at hrl
              exact Option.noConfusion hrl
          · -- an end directive while a start is pending: the pair completes
            by_cases hcond : sc.kind = c.kind ∧ sc.path = c.path
            · have hmm : S.mismatch A = Option.none := by
                rw [mismatch_none_iff, hAkind, hApath, hk, hp]
                exact hcond
              have hmp := makePair_end_match A S (hAact.trans hact) hmm
              rw [applyGo_cons, hmp]
              dsimp only
              rw [hp]
              -- geometry of the input around the pending pair
              have hX : (bt ++ l :: rest : List (List Char)) ≠ [] := by simp
              have hinput2 : input =
                  (PRE ++ (joinTrail Wemit ++ sl)) ++ '\n' :: joinNl (bt ++ l :: rest) := by
                rw [hinput,
                  show (Wemit ++ sl :: bt) ++ l :: rest = Wemit ++ sl :: (bt ++ l :: rest)
                    by simp,
                  joinNl_mid Wemit sl (bt ++ l :: rest) hX]
                simp [List.append_assoc]
              have hSend : S.rangeEnd = utf8Len (PRE ++ (joinTrail Wemit ++ sl)) := by
                rw [utf8Len_append, utf8Len_append, utf8Len_joinTrail_append] at *
                omega
              have hdropS : byteDrop input S.rangeEnd = '\n' :: joinNl (bt ++ l :: rest) := by
                rw [hinput2, hSend, byteDrop_len]
              have hjts : utf8Len (joinTrail (Wemit ++ sl :: bt)) =
                  utf8Len (joinTrail Wemit) + utf8Len sl + 1 + utf8Len (joinTrail bt) :=
                utf8Len_joinTrail_mid Wemit sl bt
              have hold : byteSlice input S.rangeEnd
                  (utf8Len PRE + utf8Len (joinTrail (Wemit ++ sl :: bt))) =
                  '\n' :: joinTrail bt := by
                show byteTake (byteDrop input S.rangeEnd) _ = _
                rw [hdropS]
                have hd : utf8Len PRE + utf8Len (joinTrail (Wemit ++ sl :: bt)) -
                    S.rangeEnd = 1 + utf8Len (joinTrail bt) := by
                  rw [hSend, utf8Len_append, utf8Len_append, hjts]
                  omega
                rw [hd, byteTake_cons_pos _ _ _ (by omega), nl_utf8Size]
                congr 1
                have h2 : 1 + utf8Len (joinTrail bt) - 1 = utf8Len (joinTrail bt) := by
                  omega
                rw [h2, joinNl_append_of_ne_nil bt (l :: rest) (by simp), byteTake_len]
              have hslice : byteSlice input (utf8Len PRE) S.rangeEnd =
                  joinTrail Wemit ++ sl := by
                show byteTake (byteDrop input (utf8Len PRE)) _ = _
                have hdropP : byteDrop input (utf8Len PRE) =
                    (joinTrail Wemit ++ sl) ++ '\n' :: joinNl (bt ++ l :: rest) := by
                  rw [hinput2, List.append_assoc, byteDrop_len]
                have hd2 : S.rangeEnd - utf8Len PRE = utf8Len (joinTrail Wemit ++ sl) := by
                  rw [hSend, utf8Len_append]
                  omega
                rw [hdropP, hd2, byteTake_len]
              have hbtfree : ∀ x ∈ bt, '\n' ∉ x := by
                intro x hx
                apply hnl x
                simp [hx]
              rcases hincE : inc sc.path with reason | ⟨rel2, src⟩
              · -- the include fails: both engines abort
                dsimp only
                constructor
                · intro h
                  exact Out.noConfusion h
                · rintro ⟨mF, e, g, b, hrl, -⟩
                  rw [runLines_cons_none inc l rest _
                    (stepLine_end_pend_incfail inc l sl sc c bt reason hpl hact hcond
                      hincE)] at hrl
                  exact Option.noConfusion hrl
              · dsimp only
                rcases htr : trim src S A with _ | er | trimmed
                · -- trim panics: applyGo panics, the line model rejects
                  have htf : trimArgs src sc.arg c.arg = Option.none := by
                    have h1 := trim_toOpt src S A
                    rw [htr, harg, hAarg] at h1
                    dsimp only [Out.toOpt] at h1
                    exact h1.symm
                  dsimp only
                  constructor
                  · intro h
                    exact Out.noConfusion h
                  · rintro ⟨mF, e, g, b, hrl, -⟩
                    rw [runLines_cons_none inc l rest _
                      (stepLine_end_pend_trimfail inc l sl sc c bt rel2 src hpl hact
                        hcond hincE htf)] at hrl
                    exact Option.noConfusion hrl
                · -- trim errs: both engines abort
                  have htf : trimArgs src sc.arg c.arg = Option.none := by
                    have h1 := trim_toOpt src S A
                    rw [htr, harg, hAarg] at h1
                    dsimp only [Out.toOpt] at h1
                    exact h1.symm
                  dsimp only
                  constructor
                  · intro h
                    exact Out.noConfusion h
                  · rintro ⟨mF, e, g, b, hrl, -⟩
                    rw [runLines_cons_none inc l rest _
                      (stepLine_end_pend_trimfail inc l sl sc c bt rel2 src hpl hact
                        hcond hincE htf)] at hrl
                    exact Option.noConfusion hrl
                · -- trim succeeds: the pair is spliced
                  have htf : trimArgs src sc.arg c.arg = some trimmed := by
                    have h1 := trim_toOpt src S A
                    rw [htr, harg, hAarg] at h1
                    dsimp only [Out.toOpt] at h1
                    exact h1.symm
                  have htn : toDocComment trimmed S.kind.docPfx =
                      joinTrail (blockLines trimmed sc.kind) := by
                    rw [hk]
                    exact toDocComment_eq_joinTrail trimmed sc.kind
                  dsimp only
                  rw [htn]
                  have hmod : isModified (joinTrail (blockLines trimmed sc.kind)) input S A
                      = decide (bt ≠ blockLines trimmed sc.kind) := by
                    by_cases hbt : bt = blockLines trimmed sc.kind
                    · rw [decide_eq_false (not_not_intro hbt), isModified_false_iff]
                      unfold pairUnchanged
                      rw [hAstart, hold, hbt]
                    · rw [decide_eq_true hbt]
                      rcases hm2 : isModified (joinTrail (blockLines trimmed sc.kind))
                          input S A with _ | _
                      · exfalso
                        have h2 := (isModified_false_iff _ input S A).mp hm2
                        unfold pairUnchanged at h2
                        rw [hAstart, hold] at h2
                        injection h2 with _ h2
                        exact hbt ((joinTrail_inj bt _ hbtfree
                          (blockLines_nlfree trimmed sc.kind)).mp h2)
                      · rfl
                  rw [hmod]
                  -- the recursion arguments, rewritten to invariant form
                  rw [hslice, hAstart]
                  have hin2 : input = (PRE ++ joinTrail (Wemit ++ sl :: bt)) ++
                      joinNl (([l] ++ flushMode .idle) ++ rest) := by
                    rw [hinput, joinNl_append_of_ne_nil _ (l :: rest) (by simp),
                      ← List.append_assoc]
                    simp [flushMode]
                  have hnl2 : ∀ x ∈ ([l] ++ flushMode .idle) ++ rest, '\n' ∉ x := by
                    intro x hx
                    apply hnl x
                    simp only [flushMode, List.append_nil] at hx
                    simp at hx ⊢
                    tauto
                  have hedge2 : [l] ++ flushMode .idle = [] → (E ++ (sl ::
                      (blockLines trimmed sc.kind ++ [l]))) = [] ∧ rest ≠ [] := by
                    intro hc
                    simp [flushMode] at hc
                  have hjt2 : joinTrail (E ++ (sl :: (blockLines trimmed sc.kind ++ [l]))) =
                      (textAcc ++ (joinTrail Wemit ++ sl) ++ ['\n'] ++
                        joinTrail (blockLines trimmed sc.kind)) ++ joinTrail [l] := by
                    rw [show E ++ (sl :: (blockLines trimmed sc.kind ++ [l])) =
                      ((E ++ [sl]) ++ blockLines trimmed sc.kind) ++ [l] by simp,
                      joinTrail_append, joinTrail_append, joinTrail_append, hjt,
                      joinTrail_singleton]
                    simp [List.append_assoc]
                  have hoffA : utf8Len (PRE ++ joinTrail (Wemit ++ sl :: bt)) +
                      utf8Len (joinTrail [l]) =
                      utf8Len PRE + utf8Len (joinTrail (Wemit ++ sl :: bt)) +
                        utf8Len l + 1 := by
                    rw [utf8Len_append, utf8Len_joinTrail_single]
                    omega
                  have hoffB : utf8Len (PRE ++ joinTrail (Wemit ++ sl :: bt)) =
                      utf8Len PRE + utf8Len (joinTrail (Wemit ++ sl :: bt)) :=
                    utf8Len_append _ _
                  by_cases hbt : bt = blockLines trimmed sc.kind
                  · -- the rendered block already sits between the markers
                    have hbb : decide (bt ≠ blockLines trimmed sc.kind) = false :=
                      decide_eq_false (not_not_intro hbt)
                    rw [hbb, if_neg (by simp)]
                    have ihh := ih (PRE ++ joinTrail (Wemit ++ sl :: bt)) [l]
                      (E ++ (sl :: (blockLines trimmed sc.kind ++ [l]))) Option.none .idle
                      (textAcc ++ (joinTrail Wemit ++ sl) ++ ['\n'] ++
                        joinTrail (blockLines trimmed sc.kind)) modif
                      (logs ++ [(rel2, false)]) hin2 hjt2 trivial hnl2 hedge2 r
                    simp only [flushMode, List.append_nil] at ihh
                    rw [hoffA, hoffB] at ihh
                    rw [ihh]
                    have hstep := stepLine_end_pend_ok inc l sl sc c bt rel2 src trimmed
                      hpl hact hcond hincE htf
                      (by intro hc; rw [hbb] at hc; exact Bool.noConfusion hc.1)
                    rw [hbb] at hstep
                    constructor
                    · rintro ⟨mF, e2, g2, b2, hrl, rfl⟩
                      exact ⟨mF, (sl :: (blockLines trimmed sc.kind ++ [l])) ++ e2,
                        [(rel2, false)] ++ g2, false || b2,
                        (runLines_cons_some_iff inc l rest (.pend sl sc bt) .idle
                          (sl :: (blockLines trimmed sc.kind ++ [l])) [(rel2, false)]
                          false hstep mF _ _ _).mpr ⟨e2, g2, b2, hrl, rfl, rfl, rfl⟩,
                        by simp [List.append_assoc]⟩
                    · rintro ⟨mF, e, g, b, hrl, rfl⟩
                      rcases (runLines_cons_some_iff inc l rest (.pend sl sc bt) .idle
                        (sl :: (blockLines trimmed sc.kind ++ [l])) [(rel2, false)]
                        false hstep mF e g b).mp hrl with ⟨e2, g2, b2, hrl2, rfl, rfl, rfl⟩
                      exact ⟨mF, _, _, _, hrl2, by simp [List.append_assoc]⟩
                  · -- the pair really changes the text
                    have hbb : decide (bt ≠ blockLines trimmed sc.kind) = true :=
                      decide_eq_true hbt
                    rw [hbb, if_pos rfl]
                    rcases hfmb : findMayBad (joinTrail (blockLines trimmed sc.kind))
                        with _ | ⟨pa, pb⟩
                    · dsimp only
                      have ihh := ih (PRE ++ joinTrail (Wemit ++ sl :: bt)) [l]
                        (E ++ (sl :: (blockLines trimmed sc.kind ++ [l]))) Option.none .idle
                        (textAcc ++ (joinTrail Wemit ++ sl) ++ ['\n'] ++
                          joinTrail (blockLines trimmed sc.kind)) true
                        (logs ++ [(rel2, true)]) hin2 hjt2 trivial hnl2 hedge2 r
                      simp only [flushMode, List.append_nil] at ihh
                      rw [hoffA, hoffB] at ihh
                      rw [ihh]
                      have hstep := stepLine_end_pend_ok inc l sl sc c bt rel2 src trimmed
                        hpl hact hcond hincE htf
                        (by intro hc; rw [hfmb] at hc; simp at hc)
                      rw [hbb] at hstep
                      constructor
                      · rintro ⟨mF, e2, g2, b2, hrl, rfl⟩
                        exact ⟨mF, (sl :: (blockLines trimmed sc.kind ++ [l])) ++ e2,
                          [(rel2, true)] ++ g2, true || b2,
                          (runLines_cons_some_iff inc l rest (.pend sl sc bt) .idle
                            (sl :: (blockLines trimmed sc.kind ++ [l])) [(rel2, true)]
                            true hstep mF _ _ _).mpr ⟨e2, g2, b2, hrl, rfl, rfl, rfl⟩,
                          by simp [List.append_assoc]⟩
                      · rintro ⟨mF, e, g, b, hrl, rfl⟩
                        rcases (runLines_cons_some_iff inc l rest (.pend sl sc bt) .idle
                          (sl :: (blockLines trimmed sc.kind ++ [l])) [(rel2, true)]
                          true hstep mF e g b).mp hrl with ⟨e2, g2, b2, hrl2, rfl, rfl, rfl⟩
                        exact ⟨mF, _, _, _, hrl2, by simp [List.append_assoc]⟩
                    · -- the pollution probe fires: both engines abort
                      dsimp only
                      constructor
                      · intro h
                        exact Out.noConfusion h
                      · rintro ⟨mF, e, g, b, hrl, -⟩
                        rw [runLines_cons_none inc l rest _
                          (stepLine_end_pend_guard inc l sl sc c bt rel2 src trimmed hpl
                            hact hcond hincE htf ⟨hbb, by rw [hfmb]; rfl⟩)] at hrl
                        exact Option.noConfusion hrl
            · -- kind or path mismatch: both engines abort
              have hmmne : S.mismatch A ≠ Option.none := by
                intro h0
                rw [mismatch_none_iff, hAkind, hApath, hk, hp] at h0
                exact hcond h0
              rcases hmm : S.mismatch A with _ | m0
              · exact absurd hmm hmmne
              · have hmp := makePair_end_mismatch A S m0 (hAact.trans hact) hmm
                rw [applyGo_cons, hmp]
                dsimp only
                constructor
                · intro h
                  exact Out.noConfusion h
                · rintro ⟨mF, e, g, b, hrl, -⟩
                  rw [runLines_cons_none inc l rest _
                    (stepLine_end_pend_nomatch inc l sl sc c bt hpl hact hcond)] at hrl
                  exact Option.noConfusion hrl

theorem runLines_append_some (inc : Inc) : ∀ (A B : List (List Char)) (m m1 m2 : LMode)
    (e1 : List (List Char)) (g1 : List (List Char × Bool)) (b1 : Bool)
    (e2 : List (List Char)) (g2 : List (List Char × Bool)) (b2 : Bool),
    runLines inc A m = some (m1, e1, g1, b1) →
    runLines inc B m1 = some (m2, e2, g2, b2) →
    runLines inc (A ++ B) m = some (m2, e1 ++ e2, g1 ++ g2, b1 || b2) := by
  intro A
  induction A with
  | nil =>
    intro B m m1 m2 e1 g1 b1 e2 g2 b2 h1 h2
    have h1b : (some (m, ([] : List (List Char)), ([] : List (List Char × Bool)), false) :
        Option (LMode × List (List Char) × List (List Char × Bool) × Bool)) =
          some (m1, e1, g1, b1) := h1
    injection h1b with h1b
    injection h1b with ha hbcd
    injection hbcd with hb hcd
    injection hcd with hc hd
    subst ha
    subst hb
    subst hc
    subst hd
    simpa using h2
  | cons l A ih =>
    intro B m m1 m2 e1 g1 b1 e2 g2 b2 h1 h2
    rcases hst : stepLine inc m l with _ | ⟨ma, ea, ga, ba⟩
    · rw [runLines_cons_none inc l A m hst] at h1
      exact Option.noConfusion h1
    · rcases (runLines_cons_some_iff inc l A m ma ea ga ba hst m1 e1 g1 b1).mp h1 with
        ⟨eb, gb, bb, hA, he, hg, hb⟩
      subst he
      subst hg
      subst hb
      have hAB := ih B ma m1 m2 eb gb bb e2 g2 b2 hA h2
      exact (runLines_cons_some_iff inc l (A ++ B) m ma ea ga ba hst m2
        ((ea ++ eb) ++ e2) ((ga ++ gb) ++ g2) ((ba || bb) || b2)).mpr
        ⟨eb ++ e2, gb ++ g2, bb || b2, hAB, by simp [List.append_assoc],
          by simp [List.append_assoc], by simp [Bool.or_assoc]⟩

theorem blockLines_parse_none (trimmed : List Char) (k : Kind) :
    ∀ x ∈ blockLines trimmed k, parseLine x = Option.none := by
  intro x hx
  rcases List.mem_map.mp hx with ⟨y, hy, hxy⟩
  subst hxy
  exact parseLine_docPfx k y

/-- Replaying the buffered between-lines of a pending pair: each parses as no
directive, so the mode just accumulates them. -/
theorem runLines_enter (inc : Inc) (sl : List Char) (sc : Core) :
    ∀ (bt1 bt0 : List (List Char)), (∀ x ∈ bt1, parseLine x = Option.none) →
      runLines inc bt1 (.pend sl sc bt0) = some (.pend sl sc (bt0 ++ bt1), [], [], false) := by
  intro bt1
  induction bt1 with
  | nil =>
    intro bt0 h
    rw [List.append_nil]
    rfl
  | cons x bt1 ih =>
    intro bt0 h
    have hstep := stepLine_plain_pend inc x sl sc bt0 (h x (by simp))
    have hrec := ih (bt0 ++ [x]) (fun y hy => h y (by simp [hy]))
    rw [List.append_assoc, List.singleton_append] at hrec
    exact (runLines_cons_some_iff inc x bt1 (.pend sl sc bt0) (.pend sl sc (bt0 ++ [x]))
      [] [] false hstep (.pend sl sc (bt0 ++ x :: bt1)) [] [] false).mpr
      ⟨[], [], false, hrec, rfl, rfl, rfl⟩

/-- Replaying a still-pending start and its buffered lines from `idle`
re-creates exactly the same mode. -/
theorem runLines_flush (inc : Inc) (sl : List Char) (sc : Core) (bt : List (List Char))
    (hsl : parseLine sl = some (some sc)) (hact : sc.action = Action.start)
    (hbt : ∀ x ∈ bt, parseLine x = Option.none) :
    runLines inc (sl :: bt) .idle = some (.pend sl sc bt, [], [], false) := by
  have hstep := stepLine_start_idle inc sl sc hsl hact
  have hrec := runLines_enter inc sl sc bt [] hbt
  rw [List.nil_append] at hrec
  exact (runLines_cons_some_iff inc sl bt .idle (.pend sl sc []) [] [] false hstep
    (.pend sl sc bt) [] [] false).mpr ⟨[], [], false, hrec, rfl, rfl, rfl⟩

/-- Replaying the tail of a completed block: the rendered lines parse as no
directive and the closing end line completes the pair again, unmodified. -/
theorem runLines_between (inc : Inc) (sl l : List Char) (sc c : Core)
    (rel src trimmed : List Char)
    (hl : parseLine l = some (some c)) (hact : c.action = Action.end_)
    (hcond : sc.kind = c.kind ∧ sc.path = c.path)
    (hincE : inc sc.path = .ok (rel, src))
    (htf : trimArgs src sc.arg c.arg = some trimmed) :
    ∀ (bls1 bt0 : List (List Char)), (∀ x ∈ bls1, parseLine x = Option.none) →
      bt0 ++ bls1 = blockLines trimmed sc.kind →
      runLines inc (bls1 ++ [l]) (.pend sl sc bt0) =
        some (.idle, sl :: (blockLines trimmed sc.kind ++ [l]), [(rel, false)], false) := by
  intro bls1
  induction bls1 with
  | nil =>
    intro bt0 hpar heq
    rw [List.append_nil] at heq
    subst heq
    have hdec : decide (blockLines trimmed sc.kind ≠ blockLines trimmed sc.kind) = false :=
      decide_eq_false (not_not_intro rfl)
    have hstep := stepLine_end_pend_ok inc l sl sc c (blockLines trimmed sc.kind) rel src
      trimmed hl hact hcond hincE htf
      (by intro hc; rw [hdec] at hc; exact Bool.noConfusion hc.1)
    rw [hdec] at hstep
    exact (runLines_cons_some_iff inc l [] (.pend sl sc (blockLines trimmed sc.kind))
      .idle (sl :: (blockLines trimmed sc.kind ++ [l])) [(rel, false)] false hstep
      .idle (sl :: (blockLines trimmed sc.kind ++ [l])) [(rel, false)] false).mpr
      ⟨[], [], false, rfl, by simp, by simp, by simp⟩
  | cons x bls1 ih =>
    intro bt0 hpar heq
    have hx : parseLine x = Option.none := hpar x (by simp)
    have hstep := stepLine_plain_pend inc x sl sc bt0 hx
    have hrec := ih (bt0 ++ [x]) (fun y hy => hpar y (by simp [hy]))
      (by rw [List.append_assoc, List.singleton_append]; exact heq)
    exact (runLines_cons_some_iff inc x (bls1 ++ [l]) (.pend sl sc bt0)
      (.pend sl sc (bt0 ++ [x])) [] [] false hstep .idle
      (sl :: (blockLines trimmed sc.kind ++ [l])) [(rel, false)] false).mpr
      ⟨sl :: (blockLines trimmed sc.kind ++ [l]), [(rel, false)], false, hrec,
        by simp, by simp, by simp⟩

/-- Replaying a whole just-rendered block from `idle` re-emits it verbatim and
logs the pair as unmodified. -/
theorem runLines_block (inc : Inc) (sl l : List Char) (sc c : Core)
    (rel src trimmed : List Char)
    (hsl : parseLine sl = some (some sc)) (hslact : sc.action = Action.start)
    (hl : parseLine l = some (some c)) (hact : c.action = Action.end_)
    (hcond : sc.kind = c.kind ∧ sc.path = c.path)
    (hincE : inc sc.path = .ok (rel, src))
    (htf : trimArgs src sc.arg c.arg = some trimmed) :
    runLines inc (sl :: (blockLines trimmed sc.kind ++ [l])) .idle =
      some (.idle, sl :: (blockLines trimmed sc.kind ++ [l]), [(rel, false)], false) := by
  have hstep := stepLine_start_idle inc sl sc hsl hslact
  have hrec := runLines_between inc sl l sc c rel src trimmed hl hact hcond hincE htf
    (blockLines trimmed sc.kind) [] (blockLines_parse_none trimmed sc.kind)
    (List.nil_append _)
  exact (runLines_cons_some_iff inc sl (blockLines trimmed sc.kind ++ [l]) .idle
    (.pend sl sc []) [] [] false hstep .idle
    (sl :: (blockLines trimmed sc.kind ++ [l])) [(rel, false)] false).mpr
    ⟨sl :: (blockLines trimmed sc.kind ++ [l]), [(rel, false)], false, hrec,
      by simp, by simp, by simp⟩

theorem runLines_cons_skip (inc : Inc) (l : List Char) (ls : List (List Char))
    (m m1 : LMode) (hstep : stepLine inc m l = some (m1, [], [], false)) :
    runLines inc (l :: ls) m = runLines inc ls m1 := by
  rw [runLines_cons, hstep]
  dsimp only
  rcases hrl : runLines inc ls m1 with _ | ⟨m2, e2, g2, b2⟩
  · rfl
  · simp

/-- Second-run simulation: a successful line-level run, replayed from `idle`
on its own output (emitted lines plus the flushed final mode), succeeds,
emits those same lines, re-creates the same final mode, and reports no
modification. -/
theorem runLines_idem (inc : Inc) : ∀ (ls : List (List Char)) (m mF : LMode)
    (e : List (List Char)) (g : List (List Char × Bool)) (b : Bool),
    runLines inc ls m = some (mF, e, g, b) → WfMode m →
    (∀ x ∈ ls, '\n' ∉ x) → (∀ x ∈ flushMode m, '\n' ∉ x) →
    WfMode mF ∧ (∀ x ∈ e ++ flushMode mF, '\n' ∉ x) ∧
      ((ls ≠ [] ∨ flushMode m ≠ []) → e ++ flushMode mF ≠ []) ∧
      ∃ g2, runLines inc (e ++ flushMode mF) .idle = some (mF, e, g2, false) := by
  intro ls
  induction ls with
  | nil =>
    intro m mF e g b h hwf hnls hnlm
    have h2 : (some (m, ([] : List (List Char)), ([] : List (List Char × Bool)), false) :
        Option (LMode × List (List Char) × List (List Char × Bool) × Bool)) =
          some (mF, e, g, b) := h
    injection h2 with h2
    injection h2 with ha hbcd
    injection hbcd with hb hcd
    injection hcd with hc hd
    subst ha
    subst hb
    subst hc
    subst hd
    refine ⟨hwf, by simpa using hnlm, ?_, ?_⟩
    · intro hd2
      rcases hd2 with hd2 | hd2
      · exact absurd rfl hd2
      · simpa using hd2
    · rcases m with _ | ⟨sl, sc, bt⟩
      · exact ⟨[], rfl⟩
      · obtain ⟨hsl, hslact, hbt⟩ := hwf
        exact ⟨[], runLines_flush inc sl sc bt hsl hslact hbt⟩
  | cons l rest ih =>
    intro m mF e g b h hwf hnls hnlm
    rcases hpl : parseLine l with _ | (_ | c)
    · rcases m with _ | ⟨sl, sc, bt⟩
      · -- a plain line from idle is emitted and replays identically
        have hstep := stepLine_plain_idle inc l hpl
        rcases (runLines_cons_some_iff inc l rest .idle .idle [l] [] false hstep
          mF e g b).mp h with ⟨e2, g2, b2, hrest, rfl, -, -⟩
        obtain ⟨hwfF, hfree, hne, g2x, hrun2⟩ := ih .idle mF e2 g2 b2 hrest trivial
          (fun x hx => hnls x (by simp [hx])) (by simp [flushMode])
        refine ⟨hwfF, ?_, ?_, ?_⟩
        · intro x hx
          have hmem : x = l ∨ x ∈ e2 ∨ x ∈ flushMode mF := by
            simpa [List.append_assoc] using hx
          rcases hmem with rfl | hm | hm
          · exact hnls x (by simp)
          · exact hfree x (by simp only [List.mem_append]; tauto)
          · exact hfree x (by simp only [List.mem_append]; tauto)
        · intro hd
          simp
        · exact ⟨g2x, (runLines_cons_some_iff inc l (e2 ++ flushMode mF) .idle .idle
            [l] [] false hstep mF ([l] ++ e2) g2x false).mpr
            ⟨e2, g2x, false, hrun2, rfl, rfl, rfl⟩⟩
      · -- a plain line while a start is pending is buffered and replays so
        obtain ⟨hsl, hslact, hbt⟩ := hwf
        have hstep := stepLine_plain_pend inc l sl sc bt hpl
        rw [runLines_cons_skip inc l rest _ _ hstep] at h
        have hwf2 : WfMode (.pend sl sc (bt ++ [l])) := by
          refine ⟨hsl, hslact, ?_⟩
          intro x hx
          rcases List.mem_append.mp hx with hx | hx
          · exact hbt x hx
          · rw [List.mem_singleton] at hx
            subst hx
            exact hpl
        have hnlm2 : ∀ x ∈ flushMode (.pend sl sc (bt ++ [l])), '\n' ∉ x := by
          intro x hx
          have hmem : x = sl ∨ x ∈ bt ∨ x = l := by
            simpa [flushMode] using hx
          rcases hmem with rfl | hm | rfl
          · exact hnlm x (by simp [flushMode])
          · exact hnlm x (by simp [flushMode, hm])
          · exact hnls x (by simp)
        obtain ⟨hwfF, hfree, hne, g2x, hrun2⟩ := ih (.pend sl sc (bt ++ [l])) mF e g b
          h hwf2 (fun x hx => hnls x (by simp [hx])) hnlm2
        exact ⟨hwfF, hfree, fun hd => hne (Or.inr (by simp [flushMode])), g2x, hrun2⟩
    · rw [runLines_cons_none inc l rest m (stepLine_bad inc l m hpl)] at h
      exact Option.noConfusion h
    · rcases hact : c.action with _ | _
      · rcases m with _ | ⟨sl, sc, bt⟩
        · -- a fresh start becomes pending and replays so
          have hstep := stepLine_start_idle inc l c hpl hact
          rw [runLines_cons_skip inc l rest _ _ hstep] at h
          have hwf2 : WfMode (.pend l c []) := ⟨hpl, hact, by simp⟩
          have hnlm2 : ∀ x ∈ flushMode (.pend l c []), '\n' ∉ x := by
            intro x hx
            have hmem : x = l := by simpa [flushMode] using hx
            subst hmem
            exact hnls x (by simp)
          obtain ⟨hwfF, hfree, hne, g2x, hrun2⟩ := ih (.pend l c []) mF e g b h
            hwf2 (fun x hx => hnls x (by simp [hx])) hnlm2
          exact ⟨hwfF, hfree, fun hd => hne (Or.inr (by simp [flushMode])), g2x, hrun2⟩
        · rw [runLines_cons_none inc l rest _
            (stepLine_start_pend inc l sl sc c bt hpl hact)] at h
          exact Option.noConfusion h
      · rcases m with _ | ⟨sl, sc, bt⟩
        · rw [runLines_cons_none inc l rest _ (stepLine_end_idle inc l c hpl hact)] at h
          exact Option.noConfusion h
        · obtain ⟨hsl, hslact, hbt⟩ := hwf
          by_cases hcond : sc.kind = c.kind ∧ sc.path = c.path
          · rcases hincE : inc sc.path with reason | ⟨rel2, src⟩
            · rw [runLines_cons_none inc l rest _
                (stepLine_end_pend_incfail inc l sl sc c bt reason hpl hact hcond
                  hincE)] at h
              exact Option.noConfusion h
            · rcases htf : trimArgs src sc.arg c.arg with _ | trimmed
              · rw [runLines_cons_none inc l rest _
                  (stepLine_end_pend_trimfail inc l sl sc c bt rel2 src hpl hact hcond
                    hincE htf)] at h
                exact Option.noConfusion h
              · by_cases hguard : decide (bt ≠ blockLines trimmed sc.kind) = true ∧
                    (findMayBad (joinTrail (blockLines trimmed sc.kind))).isSome = true
                · rw [runLines_cons_none inc l rest _
                    (stepLine_end_pend_guard inc l sl sc c bt rel2 src trimmed hpl hact
                      hcond hincE htf hguard)] at h
                  exact Option.noConfusion h
                · -- the pair completes; the replayed block completes it again,
                  -- this time unmodified
                  have hstep := stepLine_end_pend_ok inc l sl sc c bt rel2 src trimmed
                    hpl hact hcond hincE htf hguard
                  rcases (runLines_cons_some_iff inc l rest (.pend sl sc bt) .idle
                    (sl :: (blockLines trimmed sc.kind ++ [l]))
                    [(rel2, decide (bt ≠ blockLines trimmed sc.kind))]
                    (decide (bt ≠ blockLines trimmed sc.kind)) hstep mF e g b).mp h with
                    ⟨e2, g2, b2, hrest, rfl, -, -⟩
                  obtain ⟨hwfF, hfree, hne, g2x, hrun2⟩ := ih .idle mF e2 g2 b2 hrest
                    trivial (fun x hx => hnls x (by simp [hx])) (by simp [flushMode])
                  refine ⟨hwfF, ?_, ?_, ?_⟩
                  · intro x hx
                    have hmem : x = sl ∨ x ∈ blockLines trimmed sc.kind ∨ x = l ∨
                        x ∈ e2 ∨ x ∈ flushMode mF := by
                      simpa [List.append_assoc] using hx
                    rcases hmem with rfl | hm | rfl | hm | hm
                    · exact hnlm x (by simp [flushMode])
                    · exact blockLines_nlfree trimmed sc.kind x hm
                    · exact hnls x (by simp)
                    · exact hfree x (by simp only [List.mem_append]; tauto)
                    · exact hfree x (by simp only [List.mem_append]; tauto)
                  · intro hd
                    simp
                  · have hblock := runLines_block inc sl l sc c rel2 src trimmed hsl
                      hslact hpl hact hcond hincE htf
                    have hcomb := runLines_append_some inc
                      (sl :: (blockLines trimmed sc.kind ++ [l])) (e2 ++ flushMode mF)
                      .idle .idle mF (sl :: (blockLines trimmed sc.kind ++ [l]))
                      [(rel2, false)] false e2 g2x false hblock hrun2
                    exact ⟨[(rel2, false)] ++ g2x,
                      by simpa [List.append_assoc] using hcomb⟩
          · rw [runLines_cons_none inc l rest _
              (stepLine_end_pend_nomatch inc l sl sc c bt hpl hact hcond)] at h
            exact Option.noConfusion h

/-- C4: running the engine twice is idempotent — whenever `apply` succeeds on
an input file and returns `Modified` text, running `apply` again on that
output text under the same include environment succeeds and returns
`Unchanged` (`text = none`): the first run's output is a fixed point. -/
theorem c4_apply_idempotent (inc : Inc) (input : List Char) (r : ApplyResult)
    (t1 : List Char) (h : apply inc input = .ok r) (ht : r.text = some t1) :
    ∃ logs2, apply inc t1 = .ok ⟨Option.none, logs2⟩ := by
  have hfwd := (applyGo_runLines inc input (splitLines input) [] [] [] Option.none .idle
    [] false []
    (by simpa using (joinNl_splitLines input).symm)
    rfl trivial
    (by intro x hx; exact splitLines_nlfree input x (by simpa [flushMode] using hx))
    (fun _ => ⟨rfl, splitLines_ne_nil input⟩) r).mp h
  obtain ⟨mF, e, g, b, hrl, hreq⟩ := hfwd
  rw [hreq] at ht
  cases b
  · exact Option.noConfusion ht
  · have ht2 : joinNl (e ++ flushMode mF) = t1 := Option.some.inj ht
    subst ht2
    obtain ⟨hwfF, hfree, hne, g2, hrun2⟩ := runLines_idem inc (splitLines input) .idle
      mF e g true hrl trivial (splitLines_nlfree input) (by simp [flushMode])
    have hneL : e ++ flushMode mF ≠ [] := hne (Or.inl (splitLines_ne_nil input))
    have hsplit : splitLines (joinNl (e ++ flushMode mF)) = e ++ flushMode mF :=
      splitLines_joinNl _ hneL hfree
    have hbwd := (applyGo_runLines inc (joinNl (e ++ flushMode mF))
      (splitLines (joinNl (e ++ flushMode mF))) [] [] [] Option.none .idle [] false []
      (by simpa using (joinNl_splitLines _).symm) rfl trivial
      (by intro x hx; exact splitLines_nlfree _ x (by simpa [flushMode] using hx))
      (fun _ => ⟨rfl, splitLines_ne_nil _⟩)
      ⟨if (false || false) = true then some (joinNl (([] ++ e) ++ flushMode mF))
       else Option.none, [] ++ g2⟩).mpr
      ⟨mF, e, g2, false, by rw [hsplit]; exact hrun2, rfl⟩
    exact ⟨[] ++ g2, hbwd⟩

theorem c4_apply_idempotent_wit :
    ∃ logs2, apply incLib outputScenario = .ok ⟨Option.none, logs2⟩ :=
  c4_apply_idempotent incLib inputScenario
    ⟨some outputScenario, [("lib.txt".toList, true)]⟩ outputScenario (by decide) rfl

end RustdocInclude
